import Mathlib

/-!
# Verification of the pinocchio recursive spatial-algebra core

Shallow embedding of the kinematic-tree / RNEA / frame-kinematics core of the
`pinocchio` repository (files `src/algorithm/frames.hpp` and
`bindings/python/algorithm/expose-rnea.cpp`), over exact rational arithmetic.

The repository extract contains only the declarations of the frame algorithms
(with the bodies of the two deprecated template forwarders) and the Python
proxies of `rnea` / `nle`.  The bodies of the recursive algorithms themselves
(forward kinematics, RNEA passes, frame extraction) are part of the repository
but not of the extract; those are modelled from the specification text, marked
`Modelled from the spec:` in their doc comments.
-/

set_option autoImplicit false

/-! ## Spatial algebra (Modelled from the spec: §4.1, the SpatialAlgebra leaf
component referenced but not shown in the extract). Scalars are `ℚ` (the code
uses machine floating point; the model is exact arithmetic). -/

/-- 3D vector over `ℚ`. -/
abbrev Vec3 : Type := Fin 3 → ℚ

/-- 3×3 matrix over `ℚ`. -/
abbrev Mat3 : Type := Matrix (Fin 3) (Fin 3) ℚ

/-- Matrix-vector product for 3×3 rational matrices. -/
def mvec (A : Mat3) (x : Vec3) : Vec3 := Matrix.mulVec A x

/-- Transpose of a 3×3 matrix. -/
def mtrans (A : Mat3) : Mat3 := Matrix.transpose A

theorem mvec_add (A : Mat3) (x y : Vec3) : mvec A (x + y) = mvec A x + mvec A y :=
  Matrix.mulVec_add A x y

theorem mvec_zero (A : Mat3) : mvec A (0 : Vec3) = 0 :=
  Matrix.mulVec_zero A

theorem mvec_neg (A : Mat3) (x : Vec3) : mvec A (-x) = -(mvec A x) :=
  Matrix.mulVec_neg x A

theorem mvec_sub (A : Mat3) (x y : Vec3) : mvec A (x - y) = mvec A x - mvec A y :=
  Matrix.mulVec_sub A x y

/-- Cross product of 3D vectors. -/
def cross3 (a b : Vec3) : Vec3 :=
  fun i =>
    if i.val = 0 then a 1 * b 2 - a 2 * b 1
    else if i.val = 1 then a 2 * b 0 - a 0 * b 2
    else a 0 * b 1 - a 1 * b 0

theorem cross3_add_right (a x y : Vec3) :
    cross3 a (x + y) = cross3 a x + cross3 a y := by
  funext i
  simp only [cross3, Pi.add_apply]
  split <;> [skip; split] <;> ring

theorem cross3_zero_right (a : Vec3) : cross3 a (0 : Vec3) = 0 := by
  funext i
  simp only [cross3, Pi.zero_apply]
  split <;> [skip; split] <;> ring

theorem cross3_neg_right (a x : Vec3) : cross3 a (-x) = -(cross3 a x) := by
  funext i
  simp only [cross3, Pi.neg_apply]
  split <;> [skip; split] <;> ring

/-- Rigid transform: rotation and translation (SE3 of the spec's §4.1). -/
structure SE3 where
  rot : Mat3
  trans : Vec3

instance : DecidableEq SE3 :=
  fun a b =>
    decidable_of_iff (a.rot = b.rot ∧ a.trans = b.trans)
      (by cases a; cases b; simp)

/-- Identity rigid transform. -/
def SE3.one : SE3 := ⟨1, 0⟩

/-- Left-to-right composition `A∘B` of rigid transforms (spec §4.1). -/
def SE3.comp (A B : SE3) : SE3 :=
  ⟨A.rot * B.rot, mvec A.rot B.trans + A.trans⟩

/-- Spatial motion: 6D linear + angular velocity or acceleration (spec §4.1). -/
structure Motion where
  lin : Vec3
  ang : Vec3

instance : DecidableEq Motion :=
  fun a b =>
    decidable_of_iff (a.lin = b.lin ∧ a.ang = b.ang)
      (by cases a; cases b; simp)

instance : Add Motion := ⟨fun a b => ⟨a.lin + b.lin, a.ang + b.ang⟩⟩

instance : Zero Motion := ⟨⟨0, 0⟩⟩

instance : Neg Motion := ⟨fun a => ⟨-a.lin, -a.ang⟩⟩

theorem motionAdd_def (a b : Motion) : a + b = ⟨a.lin + b.lin, a.ang + b.ang⟩ := rfl

theorem motionZero_def : (0 : Motion) = ⟨0, 0⟩ := rfl

/-- Spatial force / wrench: 6D linear + angular (spec §4.1). -/
structure Force where
  lin : Vec3
  ang : Vec3

instance : DecidableEq Force :=
  fun a b =>
    decidable_of_iff (a.lin = b.lin ∧ a.ang = b.ang)
      (by cases a; cases b; simp)

instance : Add Force := ⟨fun a b => ⟨a.lin + b.lin, a.ang + b.ang⟩⟩

instance : Zero Force := ⟨⟨0, 0⟩⟩

instance : Neg Force := ⟨fun a => ⟨-a.lin, -a.ang⟩⟩

instance : Sub Force := ⟨fun a b => a + -b⟩

theorem forceAdd_def (a b : Force) : a + b = ⟨a.lin + b.lin, a.ang + b.ang⟩ := rfl

theorem forceZero_def : (0 : Force) = ⟨0, 0⟩ := rfl

theorem forceNeg_def (a : Force) : -a = ⟨-a.lin, -a.ang⟩ := rfl

instance : AddCommGroup Force where
  add_assoc a b c := by
    cases a; cases b; cases c; simp [forceAdd_def, add_assoc]
  zero_add a := by cases a; simp [forceAdd_def, forceZero_def]
  add_zero a := by cases a; simp [forceAdd_def, forceZero_def]
  add_comm a b := by cases a; cases b; simp [forceAdd_def, add_comm]
  neg_add_cancel a := by
    cases a
    show Force.mk _ _ = Force.mk _ _
    simp [forceZero_def, forceNeg_def]
  sub_eq_add_neg a b := rfl
  nsmul := nsmulRec
  zsmul := zsmulRec

/-- Adjoint action of a rigid transform on a Motion: for a placement `aMb` of
frame `b` in frame `a`, maps a motion expressed in `b` to the same motion
expressed in `a`. -/
def SE3.actMotion (M : SE3) (v : Motion) : Motion :=
  ⟨mvec M.rot v.lin + cross3 M.trans (mvec M.rot v.ang), mvec M.rot v.ang⟩

/-- Inverse adjoint action on a Motion: maps a motion expressed in frame `a`
to the same motion expressed in frame `b`, for a placement `aMb`.  This is the
operator `X_i` of the spec's forward recursions (transport of the parent's
motion into the joint's local frame). -/
def SE3.actInvMotion (M : SE3) (v : Motion) : Motion :=
  ⟨mvec (mtrans M.rot) (v.lin - cross3 M.trans v.ang),
   mvec (mtrans M.rot) v.ang⟩

/-- Dual (transpose) adjoint action on a Force: for a placement `aMb`, maps a
force expressed in `b` to the same force expressed in `a`.  This is `X_i^T`
of the spec's backward pass: the dual of `SE3.actInvMotion` under the
power pairing. -/
def SE3.actForce (M : SE3) (f : Force) : Force :=
  ⟨mvec M.rot f.lin, mvec M.rot f.ang + cross3 M.trans (mvec M.rot f.lin)⟩

theorem actInvMotion_add (M : SE3) (v w : Motion) :
    M.actInvMotion (v + w) = M.actInvMotion v + M.actInvMotion w := by
  show Motion.mk _ _ = Motion.mk _ _
  simp [SE3.actInvMotion, motionAdd_def, cross3_add_right, mvec_add]
  rw [← mvec_add]
  abel_nf

theorem actInvMotion_zero (M : SE3) : M.actInvMotion (0 : Motion) = 0 := by
  show Motion.mk _ _ = Motion.mk _ _
  simp [SE3.actInvMotion, motionZero_def, cross3_zero_right, mvec_zero]

theorem actForce_add (M : SE3) (f g : Force) :
    M.actForce (f + g) = M.actForce f + M.actForce g := by
  show Force.mk _ _ = Force.mk _ _
  simp [SE3.actForce, forceAdd_def, mvec_add, cross3_add_right]
  abel

theorem actForce_zero (M : SE3) : M.actForce (0 : Force) = 0 := by
  show Force.mk _ _ = Force.mk _ _
  simp [SE3.actForce, forceZero_def, mvec_zero, cross3_zero_right]

theorem actForce_neg (M : SE3) (f : Force) : M.actForce (-f) = -(M.actForce f) := by
  show Force.mk _ _ = Force.mk _ _
  have hl : (-f).lin = -(f.lin) := rfl
  have ha : (-f).ang = -(f.ang) := rfl
  simp [SE3.actForce, hl, ha, mvec_neg, cross3_neg_right, forceNeg_def]
  abel

/-- Spatial cross product of two motions (Lie bracket `v₁ ×* v₂`, spec §4.1). -/
def crossMM (a b : Motion) : Motion :=
  ⟨cross3 a.ang b.lin + cross3 a.lin b.ang, cross3 a.ang b.ang⟩

/-- Spatial cross product of a Motion against a Force (`v ×* f`, spec §4.1),
used in the bias-force term of RNEA. -/
def crossMF (a : Motion) (f : Force) : Force :=
  ⟨cross3 a.ang f.lin, cross3 a.ang f.ang + cross3 a.lin f.lin⟩

/-! ## 6-vectors and spatial inertia -/

/-- 6D coefficient vector over `ℚ`. -/
abbrev Vec6 : Type := Fin 6 → ℚ

/-- Pack a 6-vector into a Motion: first three entries linear, last three angular. -/
def motionOfVec6 (u : Vec6) : Motion :=
  ⟨fun i => u ⟨i.val, by omega⟩, fun i => u ⟨i.val + 3, by omega⟩⟩

/-- Unpack a Motion into a 6-vector. -/
def motionToVec6 (v : Motion) : Vec6 :=
  fun i => if h : i.val < 3 then v.lin ⟨i.val, h⟩ else v.ang ⟨i.val - 3, by omega⟩

/-- Unpack a Force into a 6-vector. -/
def forceToVec6 (f : Force) : Vec6 :=
  fun i => if h : i.val < 3 then f.lin ⟨i.val, h⟩ else f.ang ⟨i.val - 3, by omega⟩

/-- Pack a 6-vector into a Force. -/
def forceOfVec6 (u : Vec6) : Force :=
  ⟨fun i => u ⟨i.val, by omega⟩, fun i => u ⟨i.val + 3, by omega⟩⟩

theorem motionOfVec6_add (u w : Vec6) :
    motionOfVec6 (u + w) = motionOfVec6 u + motionOfVec6 w := rfl

theorem motionOfVec6_zero : motionOfVec6 (0 : Vec6) = 0 := rfl

theorem motionToVec6_add (v w : Motion) :
    motionToVec6 (v + w) = motionToVec6 v + motionToVec6 w := by
  funext i
  show _ = motionToVec6 v i + motionToVec6 w i
  by_cases h : i.val < 3 <;> simp [motionToVec6, motionAdd_def, h]

theorem forceOfVec6_add (u w : Vec6) :
    forceOfVec6 (u + w) = forceOfVec6 u + forceOfVec6 w := rfl

theorem forceToVec6_add (f g : Force) :
    forceToVec6 (f + g) = forceToVec6 f + forceToVec6 g := by
  funext i
  show _ = forceToVec6 f i + forceToVec6 g i
  by_cases h : i.val < 3 <;> simp [forceToVec6, forceAdd_def, h]

theorem forceToVec6_neg (f : Force) : forceToVec6 (-f) = -(forceToVec6 f) := by
  funext i
  show _ = -(forceToVec6 f i)
  by_cases h : i.val < 3 <;> simp [forceToVec6, forceNeg_def, h]

theorem forceToVec6_zero : forceToVec6 (0 : Force) = 0 := by
  funext i
  show _ = (0 : ℚ)
  by_cases h : i.val < 3 <;> simp [forceToVec6, forceZero_def, h]

/-- Spatial inertia, a 6×6 operator mapping a Motion to a Force (spec §4.1
and glossary). -/
abbrev Inertia : Type := Matrix (Fin 6) (Fin 6) ℚ

/-- Newton-Euler product of a spatial inertia with a Motion. -/
def inertiaApply (I : Inertia) (v : Motion) : Force :=
  forceOfVec6 (Matrix.mulVec I (motionToVec6 v))

theorem inertiaApply_add (I : Inertia) (v w : Motion) :
    inertiaApply I (v + w) = inertiaApply I v + inertiaApply I w := by
  unfold inertiaApply
  rw [motionToVec6_add, Matrix.mulVec_add, forceOfVec6_add]

/-! ## Kinematic model (Modelled from the spec: §3 KinematicModel — the
`ModelTpl` class included from `pinocchio/multibody/model.hpp` is referenced
but not part of the extract).  Joints are indexed 1..N; index 0 is the
virtual universe. -/

/-- One joint of the tree: configuration and velocity widths, the relative
placement as a function of the joint's configuration slice, the 6×nv
velocity-subspace matrix `S_i(q)`, the body's spatial inertia, and the
joint-kind drift term `Ṗ_i` (zero for simple joints). -/
structure JointModel where
  nqJ : ℕ
  nvJ : ℕ
  placementJ : (Fin nqJ → ℚ) → SE3
  subspaceJ : (Fin nqJ → ℚ) → Matrix (Fin 6) (Fin nvJ) ℚ
  inertiaJ : Inertia
  driftJ : (Fin nqJ → ℚ) → (Fin nvJ → ℚ) → Motion

instance : Inhabited JointModel :=
  ⟨{ nqJ := 0, nvJ := 0, placementJ := fun _ => SE3.one,
     subspaceJ := fun _ => 0, inertiaJ := (0 : Matrix (Fin 6) (Fin 6) ℚ),
     driftJ := fun _ _ => 0 }⟩

/-- A named frame: rigidly attached to one joint via a fixed offset (spec §3). -/
structure FrameModel where
  parentJoint : ℕ
  offsetF : SE3

/-- The immutable kinematic tree (spec §3).  `gravity` is the spatial
acceleration used to initialize the acceleration recursion at the virtual
universe, producing the gravity term `g(q)` of the equations of motion. -/
structure KinematicModel where
  joints : List JointModel
  parent : ℕ → ℕ
  gravity : Motion
  frames : List FrameModel

/-- Number of real joints (1..N). -/
def njoints (m : KinematicModel) : ℕ := m.joints.length

/-- The joint with (1-based) index `i`. -/
def jointAt (m : KinematicModel) (i : ℕ) : JointModel := m.joints.getD (i - 1) default

/-- Configuration width of joint `i`. -/
def nqAt (m : KinematicModel) (i : ℕ) : ℕ := (jointAt m i).nqJ

/-- Velocity width of joint `i`. -/
def nvAt (m : KinematicModel) (i : ℕ) : ℕ := (jointAt m i).nvJ

/-- Total configuration width `nq = Σ nq_i`. -/
def nqTot (m : KinematicModel) : ℕ := (m.joints.map JointModel.nqJ).sum

/-- Total velocity width `nv = Σ nv_i`. -/
def nvTot (m : KinematicModel) : ℕ := (m.joints.map JointModel.nvJ).sum

/-- Start of joint `i`'s slice in a flat configuration vector. -/
def qOffset (m : KinematicModel) (i : ℕ) : ℕ :=
  ((m.joints.take (i - 1)).map JointModel.nqJ).sum

/-- Start of joint `i`'s slice in a flat velocity-space vector. -/
def vOffset (m : KinematicModel) (i : ℕ) : ℕ :=
  ((m.joints.take (i - 1)).map JointModel.nvJ).sum

/-- Joint `i`'s slice of a flat configuration vector. -/
def qSliceOf (m : KinematicModel) (q : List ℚ) (i : ℕ) : Fin (nqAt m i) → ℚ :=
  fun k => q.getD (qOffset m i + k.val) 0

/-- Joint `i`'s slice of a flat velocity-space vector. -/
def vSliceOf (m : KinematicModel) (v : List ℚ) (i : ℕ) : Fin (nvAt m i) → ℚ :=
  fun k => v.getD (vOffset m i + k.val) 0

/-- Relative placement of joint `i` at configuration `q`
(`jointPlacement_i(q_i)` of spec §4.3). -/
def relPlacement (m : KinematicModel) (q : List ℚ) (i : ℕ) : SE3 :=
  (jointAt m i).placementJ (qSliceOf m q i)

/-- `S_i(q_i)·w`: the joint subspace matrix applied to joint-space coefficients. -/
def subspaceMotion (m : KinematicModel) (q : List ℚ) (i : ℕ)
    (w : Fin (nvAt m i) → ℚ) : Motion :=
  motionOfVec6 (Matrix.mulVec ((jointAt m i).subspaceJ (qSliceOf m q i)) w)

/-- The joint-kind drift term `Ṗ_i` of spec §4.3 (zero for simple joints). -/
def driftMotion (m : KinematicModel) (q v : List ℚ) (i : ℕ) : Motion :=
  (jointAt m i).driftJ (qSliceOf m q i) (vSliceOf m v i)

/-- `S_i(q_i)^T · f`: generalized-force extraction for joint `i` (spec §4.4). -/
def tauSlice (m : KinematicModel) (q : List ℚ) (i : ℕ) (f : Force) :
    Fin (nvAt m i) → ℚ :=
  Matrix.mulVec (Matrix.transpose ((jointAt m i).subspaceJ (qSliceOf m q i)))
    (forceToVec6 f)

theorem tauSlice_add (m : KinematicModel) (q : List ℚ) (i : ℕ) (f g : Force) :
    tauSlice m q i (f + g) = fun k => tauSlice m q i f k + tauSlice m q i g k := by
  unfold tauSlice
  rw [forceToVec6_add, Matrix.mulVec_add]
  rfl

theorem tauSlice_neg (m : KinematicModel) (q : List ℚ) (i : ℕ) (f : Force) :
    tauSlice m q i (-f) = fun k => -(tauSlice m q i f k) := by
  unfold tauSlice
  rw [forceToVec6_neg, Matrix.mulVec_neg]
  rfl

theorem tauSlice_zero (m : KinematicModel) (q : List ℚ) (i : ℕ) :
    tauSlice m q i 0 = fun _ => 0 := by
  unfold tauSlice
  rw [forceToVec6_zero, Matrix.mulVec_zero]
  rfl

/-- Topological-order invariant of spec §3: every joint's index is strictly
greater than its parent's index. -/
def WellFormed (m : KinematicModel) : Prop :=
  ∀ i ∈ List.range' 1 (njoints m), m.parent i < i

instance (m : KinematicModel) : Decidable (WellFormed m) :=
  List.decidableBAll _ _

/-- Forward (ascending, parent-before-child) iteration order over joint
indices (spec §4.2): the plain ascending index list, no call-time sorting. -/
def forwardOrder (m : KinematicModel) : List ℕ := List.range' 1 (njoints m)

/-- Backward (descending, child-before-parent) iteration order (spec §4.2). -/
def backwardOrder (m : KinematicModel) : List ℕ := (forwardOrder m).reverse

/-! ## Forward kinematics (Modelled from the spec: §4.3 — the bodies live in
`pinocchio/algorithm/kinematics.hxx`, which the extract references but does
not contain).  The recursions are written with an explicit fuel argument that
only forces structural termination; on a well-formed model `fuel = i` always
suffices and the value is fuel-independent beyond that. -/

/-- Fuel-bounded placement recursion of spec §4.3 variant 1:
`oM[i] = oM[parent(i)] ∘ jointPlacement_i(q_i)`, `oM[0] = identity`. -/
def oMAux (m : KinematicModel) (q : List ℚ) : ℕ → ℕ → SE3
  | _, 0 => SE3.one
  | 0, _ + 1 => SE3.one
  | fuel + 1, i + 1 =>
      SE3.comp (oMAux m q fuel (m.parent (i + 1))) (relPlacement m q (i + 1))

/-- World placement of joint `i` after placement-only forward kinematics. -/
def oM (m : KinematicModel) (q : List ℚ) (i : ℕ) : SE3 := oMAux m q i i

theorem oMAux_zero (m : KinematicModel) (q : List ℚ) (fuel : ℕ) :
    oMAux m q fuel 0 = SE3.one := by
  cases fuel <;> rfl

theorem oMAux_stable (m : KinematicModel) (q : List ℚ) (hwf : WellFormed m) :
    ∀ i, i ≤ njoints m → ∀ fuel, i ≤ fuel → oMAux m q fuel i = oM m q i := by
  intro i
  induction i using Nat.strong_induction_on with
  | _ i IH =>
    match i with
    | 0 => intro _ fuel _; rw [oMAux_zero]; rfl
    | j + 1 =>
      intro hin fuel hfuel
      match fuel, hfuel with
      | fu + 1, _ =>
        have hp : m.parent (j + 1) < j + 1 := by
          apply hwf
          simp only [List.mem_range'_1]
          omega
        show SE3.comp (oMAux m q fu (m.parent (j + 1))) _ = oM m q (j + 1)
        have h1 : oMAux m q fu (m.parent (j + 1)) = oM m q (m.parent (j + 1)) :=
          IH _ hp (by omega) fu (by omega)
        have h2 : oMAux m q j (m.parent (j + 1)) = oM m q (m.parent (j + 1)) :=
          IH _ hp (by omega) j (by omega)
        show _ = SE3.comp (oMAux m q j (m.parent (j + 1))) _
        rw [h1, h2]

/-- On a well-formed model, the placement recursion satisfies the defining
equation of spec §4.3 variant 1. -/
theorem oM_step (m : KinematicModel) (q : List ℚ) (hwf : WellFormed m)
    {i : ℕ} (h1 : 1 ≤ i) (h2 : i ≤ njoints m) :
    oM m q i = SE3.comp (oM m q (m.parent i)) (relPlacement m q i) := by
  match i, h1 with
  | j + 1, _ =>
    have hp : m.parent (j + 1) < j + 1 := by
      apply hwf
      simp only [List.mem_range'_1]
      omega
    show SE3.comp (oMAux m q j (m.parent (j + 1))) _ = _
    rw [oMAux_stable m q hwf _ (by omega) j (by omega)]

/-- The chain of joints from the root down to joint `i` (inclusive),
in root-to-leaf order; fuel-bounded like `oMAux`. -/
def rootPathAux (m : KinematicModel) : ℕ → ℕ → List ℕ
  | _, 0 => []
  | 0, _ + 1 => []
  | fuel + 1, i + 1 => rootPathAux m fuel (m.parent (i + 1)) ++ [i + 1]

/-- The root-to-joint-`i` chain of joint indices. -/
def rootPath (m : KinematicModel) (i : ℕ) : List ℕ := rootPathAux m i i

theorem rootPathAux_zero (m : KinematicModel) (fuel : ℕ) :
    rootPathAux m fuel 0 = [] := by
  cases fuel <;> rfl

theorem rootPathAux_stable (m : KinematicModel) (hwf : WellFormed m) :
    ∀ i, i ≤ njoints m → ∀ fuel, i ≤ fuel → rootPathAux m fuel i = rootPath m i := by
  intro i
  induction i using Nat.strong_induction_on with
  | _ i IH =>
    match i with
    | 0 => intro _ fuel _; rw [rootPathAux_zero]; rfl
    | j + 1 =>
      intro hin fuel hfuel
      match fuel, hfuel with
      | fu + 1, _ =>
        have hp : m.parent (j + 1) < j + 1 := by
          apply hwf
          simp only [List.mem_range'_1]
          omega
        show rootPathAux m fu (m.parent (j + 1)) ++ _ = rootPath m (j + 1)
        have h1 := IH _ hp (by omega) fu (by omega)
        have h2 := IH _ hp (by omega) j (by omega)
        show _ = rootPathAux m j (m.parent (j + 1)) ++ _
        rw [h1, h2]

/-- On a well-formed model, `oM[i]` is the left-to-right composition of the
joint placements along the root-to-`i` chain. -/
theorem oM_eq_path_comp (m : KinematicModel) (q : List ℚ) (hwf : WellFormed m) :
    ∀ i, i ≤ njoints m →
      oM m q i = (rootPath m i).foldl (fun M j => SE3.comp M (relPlacement m q j)) SE3.one := by
  intro i
  induction i using Nat.strong_induction_on with
  | _ i IH =>
    match i with
    | 0 => intro _; rfl
    | j + 1 =>
      intro hin
      have hp : m.parent (j + 1) < j + 1 := by
        apply hwf
        simp only [List.mem_range'_1]
        omega
      have hoM : oM m q (j + 1) = SE3.comp (oM m q (m.parent (j + 1))) (relPlacement m q (j + 1)) :=
        oM_step m q hwf (by omega) hin
      have hpath : rootPath m (j + 1) = rootPath m (m.parent (j + 1)) ++ [j + 1] := by
        show rootPathAux m j (m.parent (j + 1)) ++ [j + 1] = _
        rw [rootPathAux_stable m hwf _ (by omega) j (by omega)]
      rw [hoM, hpath, List.foldl_append]
      rw [IH _ hp (by omega)]
      rfl

/-- Fuel-bounded velocity recursion of spec §4.3 variant 2:
`v[i] = X_i · v[parent(i)] + S_i(q_i)·v̇_i`, with `v[0] = 0`. -/
def vAux (m : KinematicModel) (q v : List ℚ) : ℕ → ℕ → Motion
  | _, 0 => 0
  | 0, _ + 1 => 0
  | fuel + 1, i + 1 =>
      SE3.actInvMotion (relPlacement m q (i + 1)) (vAux m q v fuel (m.parent (i + 1))) +
      subspaceMotion m q (i + 1) (vSliceOf m v (i + 1))

/-- Spatial velocity of joint `i` from the velocity forward pass. -/
def vJoint (m : KinematicModel) (q v : List ℚ) (i : ℕ) : Motion := vAux m q v i i

/-- Fuel-bounded acceleration recursion of spec §4.3 variant 3:
`a[i] = X_i·a[parent(i)] + S_i(q_i)·a_i + v[i] ×* (S_i(q_i)·v̇_i) + Ṗ_i`,
initialized at the universe with the model's gravity spatial acceleration
(the mechanism that produces the gravity term `g(q)` of spec §4.4). -/
def aAux (m : KinematicModel) (q v a : List ℚ) : ℕ → ℕ → Motion
  | _, 0 => m.gravity
  | 0, _ + 1 => m.gravity
  | fuel + 1, i + 1 =>
      SE3.actInvMotion (relPlacement m q (i + 1)) (aAux m q v a fuel (m.parent (i + 1))) +
      subspaceMotion m q (i + 1) (vSliceOf m a (i + 1)) +
      crossMM (vJoint m q v (i + 1)) (subspaceMotion m q (i + 1) (vSliceOf m v (i + 1))) +
      driftMotion m q v (i + 1)

/-- Spatial acceleration of joint `i` from the acceleration forward pass. -/
def aJoint (m : KinematicModel) (q v a : List ℚ) (i : ℕ) : Motion := aAux m q v a i i

theorem vAux_zero_idx (m : KinematicModel) (q v : List ℚ) (fuel : ℕ) :
    vAux m q v fuel 0 = 0 := by
  cases fuel <;> rfl

theorem aAux_zero_idx (m : KinematicModel) (q v a : List ℚ) (fuel : ℕ) :
    aAux m q v a fuel 0 = m.gravity := by
  cases fuel <;> rfl

theorem vAux_stable (m : KinematicModel) (q v : List ℚ) (hwf : WellFormed m) :
    ∀ i, i ≤ njoints m → ∀ fuel, i ≤ fuel → vAux m q v fuel i = vJoint m q v i := by
  intro i
  induction i using Nat.strong_induction_on with
  | _ i IH =>
    match i with
    | 0 => intro _ fuel _; rw [vAux_zero_idx]; rfl
    | j + 1 =>
      intro hin fuel hfuel
      match fuel, hfuel with
      | fu + 1, _ =>
        have hp : m.parent (j + 1) < j + 1 := by
          apply hwf
          simp only [List.mem_range'_1]
          omega
        show SE3.actInvMotion _ (vAux m q v fu (m.parent (j + 1))) + _ = _
        have h1 := IH _ hp (by omega) fu (by omega)
        have h2 := IH _ hp (by omega) j (by omega)
        show _ = SE3.actInvMotion _ (vAux m q v j (m.parent (j + 1))) + _
        rw [h1, h2]

theorem aAux_stable (m : KinematicModel) (q v a : List ℚ) (hwf : WellFormed m) :
    ∀ i, i ≤ njoints m → ∀ fuel, i ≤ fuel → aAux m q v a fuel i = aJoint m q v a i := by
  intro i
  induction i using Nat.strong_induction_on with
  | _ i IH =>
    match i with
    | 0 => intro _ fuel _; rw [aAux_zero_idx]; rfl
    | j + 1 =>
      intro hin fuel hfuel
      match fuel, hfuel with
      | fu + 1, _ =>
        have hp : m.parent (j + 1) < j + 1 := by
          apply hwf
          simp only [List.mem_range'_1]
          omega
        show SE3.actInvMotion _ (aAux m q v a fu (m.parent (j + 1))) + _ + _ + _ = _
        have h1 := IH _ hp (by omega) fu (by omega)
        have h2 := IH _ hp (by omega) j (by omega)
        show _ = SE3.actInvMotion _ (aAux m q v a j (m.parent (j + 1))) + _ + _ + _
        rw [h1, h2]

/-- C4: placement-only forward kinematics satisfies
`oM[i] = oM[parent(i)] ∘ jointPlacement_i(q_i)` at every joint of the
ascending (parent-before-child) order, with the virtual root's parent at the
identity, and consequently `oM[i]` is the left-to-right composition of the
joint placements along the root-to-`i` path. -/
theorem fk_placement_recursion (m : KinematicModel) (q : List ℚ) (hwf : WellFormed m) :
    oM m q 0 = SE3.one ∧
    ∀ i ∈ forwardOrder m,
      oM m q i = SE3.comp (oM m q (m.parent i)) (relPlacement m q i) ∧
      oM m q i = (rootPath m i).foldl (fun M j => SE3.comp M (relPlacement m q j)) SE3.one := by
  refine ⟨rfl, ?_⟩
  intro i hi
  have hb : 1 ≤ i ∧ i < 1 + njoints m := by
    simpa [forwardOrder, List.mem_range'_1] using hi
  exact ⟨oM_step m q hwf hb.1 (by omega), oM_eq_path_comp m q hwf i (by omega)⟩

/-! ## Concrete model used by the witnesses -/

instance : Inhabited FrameModel := ⟨⟨0, SE3.one⟩⟩

/-- A 1-dof joint translating along the x axis, used in concrete witnesses. -/
def jointEx : JointModel where
  nqJ := 1
  nvJ := 1
  placementJ := fun qv => ⟨1, fun t => if t.val = 0 then qv 0 else 0⟩
  subspaceJ := fun _ => Matrix.of fun r _ => if r.val = 0 then 1 else 0
  inertiaJ := (1 : Matrix (Fin 6) (Fin 6) ℚ)
  driftJ := fun _ _ => 0

/-- A two-joint serial chain with gravity along -z, one frame on joint 2. -/
def mEx : KinematicModel where
  joints := [jointEx, jointEx]
  parent := fun i => i - 1
  gravity := ⟨fun t => if t.val = 2 then 981 / 100 else 0, 0⟩
  frames := [⟨2, SE3.one⟩]

/-- Concrete configuration vector for `mEx`. -/
def qEx : List ℚ := [1 / 2, 3]

/-- Concrete velocity vector for `mEx`. -/
def vEx : List ℚ := [2, -1]

/-- Concrete acceleration vector for `mEx`. -/
def aEx : List ℚ := [1, 1]

/-- Witness for `fk_placement_recursion` at the concrete chain `mEx`. -/
theorem fk_placement_recursion_witness :
    WellFormed mEx ∧
    (oM mEx qEx 0 = SE3.one ∧
     ∀ i ∈ forwardOrder mEx,
       oM mEx qEx i = SE3.comp (oM mEx qEx (mEx.parent i)) (relPlacement mEx qEx i) ∧
       oM mEx qEx i =
         (rootPath mEx i).foldl (fun M j => SE3.comp M (relPlacement mEx qEx j)) SE3.one) :=
  ⟨by decide, fk_placement_recursion mEx qEx (by decide)⟩

/-! ## Algorithm data and frame kinematics (the data layout is modelled from
the spec: §3 AlgorithmData; the frame routines' bodies live in
`pinocchio/algorithm/frames.hxx`, included but not contained in the extract,
and are modelled from the spec: §4.5 and the doc comments of `frames.hpp`). -/

/-- Mutable per-call workspace (spec §3): per-joint placements, velocities,
accelerations and forces, the output `tau`, per-frame placements, and the
externally precomputed whole-body Jacobian and its time derivative. -/
structure AlgData where
  oMD : ℕ → SE3
  vD : ℕ → Motion
  aD : ℕ → Motion
  fD : ℕ → Force
  tauD : List ℚ
  oMfD : ℕ → SE3
  JD : Fin 6 → ℕ → ℚ
  dJD : Fin 6 → ℕ → ℚ

/-- Number of frames of the model. -/
def nframes (m : KinematicModel) : ℕ := m.frames.length

/-- Frame `k` of the model. -/
def frameAt (m : KinematicModel) (k : ℕ) : FrameModel := m.frames.getD k default

/-- The joint a frame is rigidly attached to. -/
def frameJoint (m : KinematicModel) (k : ℕ) : ℕ := (frameAt m k).parentJoint

/-- The frame's fixed offset from its joint. -/
def frameOffset (m : KinematicModel) (k : ℕ) : SE3 := (frameAt m k).offsetF

/-- `framesForwardKinematics(model, data)`: populates `oMf[k] =
oM[attachedJoint(k)] ∘ frameOffset(k)` from the joint placements already
stored in data (frames.hpp line 38; body modelled from the spec §4.5). -/
def framesForwardKinematics (m : KinematicModel) (d : AlgData) : AlgData :=
  { d with oMfD := fun k => SE3.comp (d.oMD (frameJoint m k)) (frameOffset m k) }

/-- `framesForwardKinematics(model, data, q)`: first performs placement-only
forward kinematics on `q`, then populates `oMf` (frames.hpp line 53; body
modelled from the spec §4.5 / §6). -/
def framesForwardKinematicsQ (m : KinematicModel) (d : AlgData) (q : List ℚ) : AlgData :=
  framesForwardKinematics m { d with oMD := oM m q }

/-- C5: after `framesForwardKinematics(model, data, q)`, every frame placement
is `oM[attachedJoint(k)] ∘ frameOffset(k)` with `oM` the placement-only
forward kinematics of `q` (also stored back into the data); the variant
without `q` computes the same composition from the placements already stored. -/
theorem frames_fk_placement (m : KinematicModel) (d : AlgData) (q : List ℚ) (k : ℕ) :
    (framesForwardKinematicsQ m d q).oMfD k
      = SE3.comp (oM m q (frameJoint m k)) (frameOffset m k) ∧
    (framesForwardKinematicsQ m d q).oMD = oM m q ∧
    (framesForwardKinematics m d).oMfD k
      = SE3.comp (d.oMD (frameJoint m k)) (frameOffset m k) :=
  ⟨rfl, rfl, rfl⟩

/-- Reference-frame convention selector (`se3::ReferenceFrame`). -/
inductive ReferenceFrame where
  | WORLD
  | LOCAL
deriving DecidableEq

/-- `getFrameVelocity(model, data, frame_id)` as declared at frames.hpp lines
86-90: no reference-frame parameter; it returns the frame's spatial velocity
expressed in the LOCAL frame coordinate system (doc of frames.hpp line 76;
transport of the owning joint's velocity through the fixed offset, modelled
from the spec §4.5). -/
def getFrameVelocity (m : KinematicModel) (d : AlgData) (fid : ℕ) : Motion :=
  SE3.actInvMotion (frameOffset m fid) (d.vD (frameJoint m fid))

/-- Modelled from the spec: the signature `getFrameVelocity(model, data,
frameId, referenceFrame)` claimed in §6, with the LOCAL / WORLD conventions
of §4.5 (WORLD re-expresses the local quantity using only `oMf[k]`'s rotation,
translation stripped).  Used to compare the claim against the declared code. -/
def getFrameVelocityRF (m : KinematicModel) (d : AlgData) (fid : ℕ) :
    ReferenceFrame → Motion
  | ReferenceFrame.LOCAL =>
      SE3.actInvMotion (frameOffset m fid) (d.vD (frameJoint m fid))
  | ReferenceFrame.WORLD =>
      ⟨mvec (d.oMfD fid).rot
         (SE3.actInvMotion (frameOffset m fid) (d.vD (frameJoint m fid))).lin,
       mvec (d.oMfD fid).rot
         (SE3.actInvMotion (frameOffset m fid) (d.vD (frameJoint m fid))).ang⟩

/-- C3 (amended): the code's `getFrameVelocity` takes no reference-frame
parameter and always returns the LOCAL-convention spatial velocity. -/
theorem getFrameVelocity_is_local (m : KinematicModel) (d : AlgData) (fid : ℕ) :
    getFrameVelocity m d fid = getFrameVelocityRF m d fid ReferenceFrame.LOCAL := rfl

/-- A rotation by 90 degrees about z, with rational entries. -/
def rotZ90 : Mat3 :=
  Matrix.of fun r c =>
    if r.val = 0 ∧ c.val = 1 then -1
    else if r.val = 1 ∧ c.val = 0 then 1
    else if r.val = 2 ∧ c.val = 2 then 1
    else 0

/-- Concrete algorithm data: unit x velocity at every joint, frame placements
rotated by `rotZ90`. -/
def dEx : AlgData where
  oMD := fun _ => SE3.one
  vD := fun _ => ⟨fun t => if t.val = 0 then 1 else 0, 0⟩
  aD := fun _ => 0
  fD := fun _ => 0
  tauD := []
  oMfD := fun _ => ⟨rotZ90, 0⟩
  JD := fun _ _ => 0
  dJD := fun _ _ => 0

/-- C3 counterexample: at a concrete model and data where the LOCAL and WORLD
conventions genuinely differ, the value `getFrameVelocity` returns is the
LOCAL one; no reference-frame argument exists through which a caller could
select the WORLD convention, refuting the claimed signature and behavior. -/
theorem getFrameVelocity_rf_counterexample :
    getFrameVelocity mEx dEx 0 ≠ getFrameVelocityRF mEx dEx 0 ReferenceFrame.WORLD ∧
    getFrameVelocity mEx dEx 0 = getFrameVelocityRF mEx dEx 0 ReferenceFrame.LOCAL := by
  refine ⟨fun h => ?_, rfl⟩
  have h1 := congrArg (fun w => w.lin 1) h
  simp only [getFrameVelocity, getFrameVelocityRF, mEx, dEx, frameOffset, frameJoint,
    frameAt, SE3.one, SE3.actInvMotion, mvec, mtrans, rotZ90, cross3,
    Matrix.mulVec, Matrix.dotProduct, Fin.sum_univ_three, List.getD,
    Matrix.transpose_apply, Matrix.one_apply, Matrix.of_apply, Pi.zero_apply,
    Pi.sub_apply, motionZero_def] at h1
  norm_num at h1

/-! ## Ancestor chains and frame Jacobians -/

/-- Fuel-bounded ancestor chain: joint `i`, its parent, ... down to the
virtual universe 0. -/
def ancChainAux (m : KinematicModel) : ℕ → ℕ → List ℕ
  | _, 0 => [0]
  | 0, i + 1 => [i + 1]
  | fuel + 1, i + 1 => (i + 1) :: ancChainAux m fuel (m.parent (i + 1))

/-- The ancestors of joint `i`, itself included, ending at the universe. -/
def ancChain (m : KinematicModel) (i : ℕ) : List ℕ := ancChainAux m i i

/-- Column range of joint `j` inside a 6×nv matrix. -/
def inJointCols (m : KinematicModel) (j c : ℕ) : Prop :=
  vOffset m j ≤ c ∧ c < vOffset m j + nvAt m j

instance (m : KinematicModel) (j c : ℕ) : Decidable (inJointCols m j c) := by
  unfold inJointCols
  infer_instance

/-- Column `c` belongs to an ancestor joint of the frame's owning joint. -/
def ancestorCol (m : KinematicModel) (fid c : ℕ) : Prop :=
  ∃ j ∈ ancChain m (frameJoint m fid), 1 ≤ j ∧ inJointCols m j c

instance (m : KinematicModel) (fid c : ℕ) : Decidable (ancestorCol m fid c) :=
  List.decidableBEx _ _

/-- Caller-supplied 6×nv output matrix (column index kept unbounded). -/
abbrev Mat6x : Type := Fin 6 → ℕ → ℚ

/-- The all-zero caller-supplied output matrix. -/
def zeroMat6x : Mat6x := fun _ _ => 0

/-- Column `c` of the precomputed whole-body Jacobian, as a Motion. -/
def jacCol (d : AlgData) (c : ℕ) : Motion := motionOfVec6 (fun r => d.JD r c)

/-- Column `c` of the precomputed whole-body Jacobian time derivative. -/
def dJacCol (d : AlgData) (c : ℕ) : Motion := motionOfVec6 (fun r => d.dJD r c)

/-- `getFrameJacobian(model, data, frame_id, rf, J)` (frames.hpp lines
113-118; body modelled from the spec §4.5): re-expresses the precomputed
whole-body Jacobian columns of the ancestor joints of the frame's owning
joint into the requested reference-frame convention, writing only those
column blocks of the caller-supplied matrix. -/
def getFrameJacobian (m : KinematicModel) (d : AlgData) (fid : ℕ)
    (rf : ReferenceFrame) (J : Mat6x) : Mat6x :=
  fun r c =>
    if ancestorCol m fid c then
      match rf with
      | ReferenceFrame.WORLD => d.JD r c
      | ReferenceFrame.LOCAL =>
          motionToVec6 (SE3.actInvMotion (d.oMfD fid) (jacCol d c)) r
    else J r c

/-- `getFrameJacobianTimeVariation(model, data, frameId, rf, dJ)` (frames.hpp
lines 203-208; body modelled from the spec §4.5): same column selection and
re-expression, reading the precomputed whole-body Jacobian time derivative. -/
def getFrameJacobianTimeVariation (m : KinematicModel) (d : AlgData) (fid : ℕ)
    (rf : ReferenceFrame) (dJ : Mat6x) : Mat6x :=
  fun r c =>
    if ancestorCol m fid c then
      match rf with
      | ReferenceFrame.WORLD => d.dJD r c
      | ReferenceFrame.LOCAL =>
          motionToVec6 (SE3.actInvMotion (d.oMfD fid) (dJacCol d c)) r
    else dJ r c

/-- The deprecated compile-time-templated `getFrameJacobian<rf>(model, data,
frame_id, J)`: frames.hpp lines 160-166, whose body forwards to the runtime
call `getFrameJacobian(model, data, frame_id, rf, J)`. -/
def getFrameJacobianTpl (rf : ReferenceFrame) (m : KinematicModel) (d : AlgData)
    (fid : ℕ) (J : Mat6x) : Mat6x :=
  getFrameJacobian m d fid rf J

/-- The deprecated compile-time-templated
`getFrameJacobianTimeVariation<rf>(model, data, frameId, dJ)`: frames.hpp
lines 223-231, whose body forwards to the runtime call. -/
def getFrameJacobianTimeVariationTpl (rf : ReferenceFrame) (m : KinematicModel)
    (d : AlgData) (fid : ℕ) (dJ : Mat6x) : Mat6x :=
  getFrameJacobianTimeVariation m d fid rf dJ

/-- C6: `getFrameJacobian` leaves every entry of a non-ancestor column of the
caller-supplied matrix untouched; under the zero-initialization precondition
those columns therefore stay zero. -/
theorem frame_jacobian_untouched_columns (m : KinematicModel) (d : AlgData)
    (fid : ℕ) (rf : ReferenceFrame) (J : Mat6x) (r : Fin 6) (c : ℕ)
    (h : ¬ ancestorCol m fid c) :
    getFrameJacobian m d fid rf J r c = J r c ∧
    ((∀ r' c', J r' c' = 0) → getFrameJacobian m d fid rf J r c = 0) := by
  constructor
  · unfold getFrameJacobian
    rw [if_neg h]
  · intro hz
    unfold getFrameJacobian
    rw [if_neg h]
    exact hz r c

/-- A three-joint model branching at joint 1: joint 3 is not an ancestor of
the frame's owning joint 2. -/
def mEx3 : KinematicModel where
  joints := [jointEx, jointEx, jointEx]
  parent := fun i => if i = 3 then 1 else i - 1
  gravity := ⟨fun t => if t.val = 2 then 981 / 100 else 0, 0⟩
  frames := [⟨2, SE3.one⟩]

/-- Witness for `frame_jacobian_untouched_columns`: column 2 (the branch
joint 3) of the frame of `mEx3` is not an ancestor column. -/
theorem frame_jacobian_untouched_columns_witness :
    ¬ ancestorCol mEx3 0 2 ∧
    (getFrameJacobian mEx3 dEx 0 ReferenceFrame.LOCAL zeroMat6x 0 2 = zeroMat6x 0 2 ∧
     ((∀ r' c', zeroMat6x r' c' = 0) →
       getFrameJacobian mEx3 dEx 0 ReferenceFrame.LOCAL zeroMat6x 0 2 = 0)) :=
  ⟨by decide, frame_jacobian_untouched_columns mEx3 dEx 0 ReferenceFrame.LOCAL
    zeroMat6x 0 2 (by decide)⟩

/-- C10: the deprecated template overloads produce exactly the same writes to
the output matrix as the non-deprecated runtime-parameter calls. -/
theorem deprecated_frame_jacobian_overloads_agree (rf : ReferenceFrame)
    (m : KinematicModel) (d : AlgData) (fid : ℕ) (J dJ : Mat6x) :
    getFrameJacobianTpl rf m d fid J = getFrameJacobian m d fid rf J ∧
    getFrameJacobianTimeVariationTpl rf m d fid dJ
      = getFrameJacobianTimeVariation m d fid rf dJ :=
  ⟨rfl, rfl⟩

/-- C9: on a well-formed model the joint index order is a topological order —
each visited joint's parent has a strictly smaller index — so the plain
ascending index list (no call-time sorting) visits every parent before its
children and the descending list visits every child before its parent. -/
theorem topological_order_iteration (m : KinematicModel) (hwf : WellFormed m) :
    forwardOrder m = List.range' 1 (njoints m) ∧
    backwardOrder m = (forwardOrder m).reverse ∧
    ∀ c ∈ forwardOrder m,
      m.parent c < c ∧
      (1 ≤ m.parent c →
        [m.parent c, c].Sublist (forwardOrder m) ∧
        [c, m.parent c].Sublist (backwardOrder m)) := by
  refine ⟨rfl, rfl, fun c hc => ?_⟩
  have hb : 1 ≤ c ∧ c < 1 + njoints m := by
    simpa [forwardOrder, List.mem_range'_1] using hc
  have hpc : m.parent c < c := hwf c hc
  refine ⟨hpc, fun hp1 => ?_⟩
  have hsplit : List.range' 1 (njoints m)
      = List.range' 1 (m.parent c) ++ List.range' (1 + m.parent c) (njoints m - m.parent c) := by
    rw [List.range'_append_1]
    congr 1
    omega
  have hfwd : [m.parent c, c].Sublist (forwardOrder m) := by
    show List.Sublist ([m.parent c] ++ [c]) (forwardOrder m)
    unfold forwardOrder
    rw [hsplit]
    apply List.Sublist.append
    · rw [List.singleton_sublist, List.mem_range'_1]
      omega
    · rw [List.singleton_sublist, List.mem_range'_1]
      omega
  refine ⟨hfwd, ?_⟩
  have : [c, m.parent c] = [m.parent c, c].reverse := rfl
  rw [this]
  exact hfwd.reverse

/-- Witness for `topological_order_iteration` at the concrete chain `mEx`. -/
theorem topological_order_iteration_witness :
    WellFormed mEx ∧
    (forwardOrder mEx = List.range' 1 (njoints mEx) ∧
     backwardOrder mEx = (forwardOrder mEx).reverse ∧
     ∀ c ∈ forwardOrder mEx,
       mEx.parent c < c ∧
       (1 ≤ mEx.parent c →
         [mEx.parent c, c].Sublist (forwardOrder mEx) ∧
         [c, mEx.parent c].Sublist (backwardOrder mEx))) :=
  ⟨by decide, topological_order_iteration mEx (by decide)⟩

/-! ## RNEA (Modelled from the spec: §4.4 — the algorithm bodies live in
`pinocchio/algorithm/rnea.hpp`, included by the Python proxy 
`bindings/python/algorithm/expose-rnea.cpp` but not contained in the
extract). -/

/-- Per-joint external force (1-based joint index into the fext list,
default zero — the spec's default when no list is passed). -/
def fextAt (fext : List Force) (i : ℕ) : Force := fext.getD (i - 1) 0

/-- Forward-pass force initialization of spec §4.4:
`f[i] = I_i · a[i] + v[i] ×* (I_i · v[i]) − f_ext[i]`. -/
def fInit (m : KinematicModel) (q v a : List ℚ) (fext : List Force) (i : ℕ) : Force :=
  inertiaApply (jointAt m i).inertiaJ (aJoint m q v a i) +
  crossMF (vJoint m q v i) (inertiaApply (jointAt m i).inertiaJ (vJoint m q v i)) -
  fextAt fext i

/-- One backward-pass step at joint `i` (spec §4.4): accumulate the joint's
force into its parent, `f[parent(i)] += X_i^T · f[i]`, then extract the
generalized force of its degrees of freedom, `tau_i = S_i(q_i)^T · f[i]`. -/
def bwdStep (m : KinematicModel) (q : List ℚ) (st : (ℕ → Force) × (ℕ → ℚ))
    (i : ℕ) : (ℕ → Force) × (ℕ → ℚ) :=
  let f1 : ℕ → Force := fun j =>
    if j = m.parent i then st.1 j + SE3.actForce (relPlacement m q i) (st.1 i)
    else st.1 j
  let tau1 : ℕ → ℚ := fun t =>
    if h : vOffset m i ≤ t ∧ t < vOffset m i + nvAt m i then
      tauSlice m q i (f1 i) ⟨t - vOffset m i, by omega⟩
    else st.2 t
  (f1, tau1)

/-- The backward pass: fold `bwdStep` over the descending joint order,
starting from the forward-pass forces `g` and a zero tau. -/
def bwdSweep (m : KinematicModel) (q : List ℚ) (g : ℕ → Force) :
    (ℕ → Force) × (ℕ → ℚ) :=
  (backwardOrder m).foldl (bwdStep m q) (g, fun _ => 0)

/-- The RNEA tau output: the flat generalized-force vector of length `nv`. -/
def rneaCore (m : KinematicModel) (q v a : List ℚ) (fext : List Force) : List ℚ :=
  (List.range (nvTot m)).map (bwdSweep m q (fInit m q v a fext)).2

/-- The degenerate forward acceleration recursion of non-linear effects
(spec §4.4): the `S_i·a_i` term of spec §4.3 variant 3 drops out, leaving the
pure bias terms. -/
def aNleAux (m : KinematicModel) (q v : List ℚ) : ℕ → ℕ → Motion
  | _, 0 => m.gravity
  | 0, _ + 1 => m.gravity
  | fuel + 1, i + 1 =>
      SE3.actInvMotion (relPlacement m q (i + 1)) (aNleAux m q v fuel (m.parent (i + 1))) +
      crossMM (vJoint m q v (i + 1)) (subspaceMotion m q (i + 1) (vSliceOf m v (i + 1))) +
      driftMotion m q v (i + 1)

/-- Bias acceleration of joint `i` in the nle forward pass. -/
def aNle (m : KinematicModel) (q v : List ℚ) (i : ℕ) : Motion := aNleAux m q v i i

/-- Force initialization of the nle forward pass (no external forces). -/
def fInitNle (m : KinematicModel) (q v : List ℚ) (i : ℕ) : Force :=
  inertiaApply (jointAt m i).inertiaJ (aNle m q v i) +
  crossMF (vJoint m q v i) (inertiaApply (jointAt m i).inertiaJ (vJoint m q v i))

/-- The non-linear-effects tau output (spec §4.4). -/
def nleCore (m : KinematicModel) (q v : List ℚ) : List ℚ :=
  (List.range (nvTot m)).map (bwdSweep m q (fInitNle m q v)).2

/-- The all-zero vector of a given width. -/
def zeroVec (n : ℕ) : List ℚ := List.replicate n 0

/-- `rnea(model, data, q, v, a, fext)` as exposed by `rnea_fext_proxy`
(expose-rnea.cpp lines 34-42): dimension preconditions checked up front
(modelled from the spec: §4.4 / §7 hard failure before any computation or
mutation of AlgorithmData), then the two passes, mutating data and storing
tau. -/
def rneaChecked (m : KinematicModel) (d : AlgData) (q v a : List ℚ)
    (fext : List Force) : Except String AlgData :=
  if q.length = nqTot m ∧ v.length = nvTot m ∧ a.length = nvTot m ∧
      fext.length = njoints m then
    Except.ok { d with
      oMD := oM m q
      vD := vJoint m q v
      aD := aJoint m q v a
      fD := (bwdSweep m q (fInit m q v a fext)).1
      tauD := rneaCore m q v a fext }
  else Except.error "dimension mismatch"

/-- `rnea(model, data, q, v, a)` as exposed by `rnea_proxy` (expose-rnea.cpp
lines 25-32): the no-external-force overload, i.e. all external forces zero. -/
def rneaAlg (m : KinematicModel) (d : AlgData) (q v a : List ℚ) :
    Except String AlgData :=
  rneaChecked m d q v a (List.replicate (njoints m) 0)

/-- `nle(model, data, q, v)` as exposed by `nle_proxy` (expose-rnea.cpp lines
44-50): dimension check, then the degenerate passes. -/
def nleChecked (m : KinematicModel) (d : AlgData) (q v : List ℚ) :
    Except String AlgData :=
  if q.length = nqTot m ∧ v.length = nvTot m then
    Except.ok { d with
      oMD := oM m q
      vD := vJoint m q v
      aD := aNle m q v
      fD := (bwdSweep m q (fInitNle m q v)).1
      tauD := nleCore m q v }
  else Except.error "dimension mismatch"

/-- The data an rnea call leaves behind: the updated workspace on success,
the unchanged input workspace on a rejected call. -/
def runRnea (m : KinematicModel) (d : AlgData) (q v a : List ℚ)
    (fext : List Force) : AlgData :=
  match rneaChecked m d q v a fext with
  | Except.ok d1 => d1
  | Except.error _ => d

/-- C8: a dimension mismatch between the inputs and the model's nq/nv/joint
count makes the call fail hard before any computation, and the algorithm
data is left exactly as it was. -/
theorem rnea_dimension_mismatch_rejected (m : KinematicModel) (d : AlgData)
    (q v a : List ℚ) (fext : List Force)
    (h : ¬ (q.length = nqTot m ∧ v.length = nvTot m ∧ a.length = nvTot m ∧
            fext.length = njoints m)) :
    rneaChecked m d q v a fext = Except.error "dimension mismatch" ∧
    runRnea m d q v a fext = d := by
  have he : rneaChecked m d q v a fext = Except.error "dimension mismatch" := by
    unfold rneaChecked
    rw [if_neg h]
  refine ⟨he, ?_⟩
  unfold runRnea
  rw [he]

/-- Witness for `rnea_dimension_mismatch_rejected`: a configuration vector of
length 1 against the two-dof chain `mEx`. -/
theorem rnea_dimension_mismatch_rejected_witness :
    ¬ ((1 : ℕ) = nqTot mEx ∧ vEx.length = nvTot mEx ∧ aEx.length = nvTot mEx ∧
        ([] : List Force).length = njoints mEx) ∧
    (rneaChecked mEx dEx [37] vEx aEx [] = Except.error "dimension mismatch" ∧
     runRnea mEx dEx [37] vEx aEx [] = dEx) :=
  ⟨by decide, rnea_dimension_mismatch_rejected mEx dEx [37] vEx aEx [] (by decide)⟩

theorem motionNeg_def (a : Motion) : -a = ⟨-a.lin, -a.ang⟩ := rfl

instance : Sub Motion := ⟨fun a b => a + -b⟩

instance : AddCommGroup Motion where
  add_assoc a b c := by
    cases a; cases b; cases c; simp [motionAdd_def, add_assoc]
  zero_add a := by cases a; simp [motionAdd_def, motionZero_def]
  add_zero a := by cases a; simp [motionAdd_def, motionZero_def]
  add_comm a b := by cases a; cases b; simp [motionAdd_def, add_comm]
  neg_add_cancel a := by
    cases a
    show Motion.mk _ _ = Motion.mk _ _
    simp [motionZero_def, motionNeg_def]
  sub_eq_add_neg a b := rfl
  nsmul := nsmulRec
  zsmul := zsmulRec

theorem getD_replicate {α : Type} (x : α) :
    ∀ (n t : ℕ), (List.replicate n x).getD t x = x := by
  intro n
  induction n with
  | zero => intro t; rfl
  | succ k IH =>
    intro t
    cases t with
    | zero => rfl
    | succ t' => exact IH t'

theorem vSliceOf_zeroVec (m : KinematicModel) (n : ℕ) (i : ℕ) :
    vSliceOf m (zeroVec n) i = 0 := by
  funext k
  show (List.replicate n (0 : ℚ)).getD _ 0 = 0
  exact getD_replicate 0 n _

theorem subspaceMotion_zero (m : KinematicModel) (q : List ℚ) (i : ℕ) :
    subspaceMotion m q i 0 = 0 := by
  unfold subspaceMotion
  rw [Matrix.mulVec_zero]
  rfl

theorem fextAt_replicate_zero (n i : ℕ) :
    fextAt (List.replicate n (0 : Force)) i = 0 :=
  getD_replicate 0 n (i - 1)

theorem aNleAux_eq_aAux_zero (m : KinematicModel) (q v : List ℚ) :
    ∀ fuel i, aNleAux m q v fuel i = aAux m q v (zeroVec (nvTot m)) fuel i := by
  intro fuel
  induction fuel with
  | zero => intro i; cases i <;> rfl
  | succ fu IH =>
    intro i
    cases i with
    | zero => rfl
    | succ j =>
      show _ = SE3.actInvMotion _ (aAux m q v _ fu (m.parent (j + 1))) + _ + _ + _
      rw [← IH (m.parent (j + 1)), vSliceOf_zeroVec, subspaceMotion_zero, add_zero]
      rfl

theorem aNle_eq_fun (m : KinematicModel) (q v : List ℚ) :
    aNle m q v = aJoint m q v (zeroVec (nvTot m)) := by
  funext i
  exact aNleAux_eq_aAux_zero m q v i i

theorem fInitNle_eq_fun (m : KinematicModel) (q v : List ℚ) :
    fInitNle m q v
      = fInit m q v (zeroVec (nvTot m)) (List.replicate (njoints m) 0) := by
  funext i
  unfold fInitNle fInit
  rw [fextAt_replicate_zero, sub_zero, aNle_eq_fun]

/-- C2: `nonLinearEffects(model, data, q, v)` returns exactly — dimension
check, every data field and the tau vector included — what
`rnea(model, data, q, v, zeroVector)` returns: the degenerate bias-only
forward pass is algebraically equal to the full pass at zero acceleration. -/
theorem nle_equals_rnea_zero_acceleration (m : KinematicModel) (d : AlgData)
    (q v : List ℚ) :
    nleChecked m d q v = rneaAlg m d q v (zeroVec (nvTot m)) := by
  unfold nleChecked rneaAlg rneaChecked
  have hlen : (zeroVec (nvTot m)).length = nvTot m := List.length_replicate _ _
  have hflen : (List.replicate (njoints m) (0 : Force)).length = njoints m :=
    List.length_replicate _ _
  by_cases hc : q.length = nqTot m ∧ v.length = nvTot m
  · rw [if_pos hc, if_pos ⟨hc.1, hc.2, hlen, hflen⟩]
    unfold nleCore rneaCore
    rw [aNle_eq_fun, fInitNle_eq_fun]
  · rw [if_neg hc, if_neg ?_]
    intro hh
    exact hc ⟨hh.1, hh.2.1⟩

/-! ## Transport of forces along ancestor chains

Machinery relating the in-place backward pass of spec §4.4 to per-subtree
force sums, used to expose the equations-of-motion structure of RNEA. -/

/-- Transport a force from joint `c`'s frame into its parent's frame: the
`X_c^T · f` accumulation operator of the backward pass. -/
def liftOne (m : KinematicModel) (q : List ℚ) (c : ℕ) (f : Force) : Force :=
  SE3.actForce (relPlacement m q c) f

/-- Fuel-bounded transport of a force from joint `i`'s frame up the parent
chain into ancestor `j`'s frame. -/
def liftToAux (m : KinematicModel) (q : List ℚ) (j : ℕ) : ℕ → ℕ → Force → Force
  | 0, _, f => f
  | fuel + 1, i, f =>
      if i = j ∨ i = 0 then f
      else liftToAux m q j fuel (m.parent i) (liftOne m q i f)

/-- Transport of a force from joint `i`'s frame into ancestor `j`'s frame. -/
def liftTo (m : KinematicModel) (q : List ℚ) (j i : ℕ) (f : Force) : Force :=
  liftToAux m q j i i f

theorem liftToAux_add (m : KinematicModel) (q : List ℚ) (j : ℕ) :
    ∀ fuel i f g, liftToAux m q j fuel i (f + g)
      = liftToAux m q j fuel i f + liftToAux m q j fuel i g := by
  intro fuel
  induction fuel with
  | zero => intro i f g; rfl
  | succ fu IH =>
    intro i f g
    show (if i = j ∨ i = 0 then _ else _) = _
    by_cases h : i = j ∨ i = 0
    · simp only [liftToAux, if_pos h]
    · simp only [liftToAux, if_neg h]
      unfold liftOne
      rw [actForce_add, IH]

theorem liftToAux_neg (m : KinematicModel) (q : List ℚ) (j : ℕ) :
    ∀ fuel i f, liftToAux m q j fuel i (-f) = -(liftToAux m q j fuel i f) := by
  intro fuel
  induction fuel with
  | zero => intro i f; rfl
  | succ fu IH =>
    intro i f
    by_cases h : i = j ∨ i = 0
    · simp only [liftToAux, if_pos h]
    · simp only [liftToAux, if_neg h]
      unfold liftOne
      rw [actForce_neg, IH]

theorem liftToAux_zero (m : KinematicModel) (q : List ℚ) (j : ℕ) :
    ∀ fuel i, liftToAux m q j fuel i 0 = 0 := by
  intro fuel
  induction fuel with
  | zero => intro i; rfl
  | succ fu IH =>
    intro i
    by_cases h : i = j ∨ i = 0
    · simp only [liftToAux, if_pos h]
    · simp only [liftToAux, if_neg h]
      unfold liftOne
      rw [actForce_zero, IH]

theorem liftTo_add (m : KinematicModel) (q : List ℚ) (j i : ℕ) (f g : Force) :
    liftTo m q j i (f + g) = liftTo m q j i f + liftTo m q j i g :=
  liftToAux_add m q j i i f g

theorem liftTo_neg (m : KinematicModel) (q : List ℚ) (j i : ℕ) (f : Force) :
    liftTo m q j i (-f) = -(liftTo m q j i f) :=
  liftToAux_neg m q j i i f

theorem liftTo_zero (m : KinematicModel) (q : List ℚ) (j i : ℕ) :
    liftTo m q j i 0 = 0 :=
  liftToAux_zero m q j i i

theorem liftTo_self (m : KinematicModel) (q : List ℚ) (j : ℕ) (f : Force) :
    liftTo m q j j f = f := by
  cases j with
  | zero => rfl
  | succ j' =>
    show liftToAux m q (j' + 1) (j' + 1) (j' + 1) f = f
    simp [liftToAux]

theorem liftToAux_stable (m : KinematicModel) (q : List ℚ) (j : ℕ)
    (hwf : WellFormed m) :
    ∀ i, i ≤ njoints m → ∀ fuel, i ≤ fuel → ∀ f,
      liftToAux m q j fuel i f = liftTo m q j i f := by
  intro i
  induction i using Nat.strong_induction_on with
  | _ i IH =>
    intro hin fuel hfuel f
    by_cases h : i = j ∨ i = 0
    · have h1 : liftToAux m q j fuel i f = f := by
        cases fuel with
        | zero => rfl
        | succ fu => simp only [liftToAux, if_pos h]
      have h2 : liftTo m q j i f = f := by
        rcases h with h | h
        · rw [h]; exact liftTo_self m q j f
        · subst h; rfl
      rw [h1, h2]
    · push_neg at h
      match i, h.2 with
      | i' + 1, _ =>
        match fuel, hfuel with
        | fu + 1, _ =>
          have hp : m.parent (i' + 1) < i' + 1 := by
            apply hwf
            simp only [List.mem_range'_1]
            omega
          have hstep1 : liftToAux m q j (fu + 1) (i' + 1) f
              = liftToAux m q j fu (m.parent (i' + 1)) (liftOne m q (i' + 1) f) := by
            simp only [liftToAux]
            rw [if_neg (by push_neg; exact ⟨h.1, by omega⟩)]
          have hstep2 : liftTo m q j (i' + 1) f
              = liftToAux m q j i' (m.parent (i' + 1)) (liftOne m q (i' + 1) f) := by
            show liftToAux m q j (i' + 1) (i' + 1) f = _
            simp only [liftToAux]
            rw [if_neg (by push_neg; exact ⟨h.1, by omega⟩)]
          rw [hstep1, hstep2,
            IH _ hp (by omega) fu (by omega) _,
            IH _ hp (by omega) i' (by omega) _]

/-- On a well-formed model, transport from a non-root joint `i ≠ j` peels one
step toward the parent. -/
theorem liftTo_rec (m : KinematicModel) (q : List ℚ) (j : ℕ) (hwf : WellFormed m)
    {i : ℕ} (h1 : 1 ≤ i) (h2 : i ≤ njoints m) (hij : i ≠ j) (f : Force) :
    liftTo m q j i f = liftTo m q j (m.parent i) (liftOne m q i f) := by
  match i, h1 with
  | i' + 1, _ =>
    have hp : m.parent (i' + 1) < i' + 1 := by
      apply hwf
      simp only [List.mem_range'_1]
      omega
    show liftToAux m q j (i' + 1) (i' + 1) f = _
    simp only [liftToAux]
    rw [if_neg (by push_neg; exact ⟨hij, by omega⟩)]
    exact liftToAux_stable m q j hwf _ (by omega) i' (by omega) _

theorem ancChainAux_zero_idx (m : KinematicModel) (fuel : ℕ) :
    ancChainAux m fuel 0 = [0] := by
  cases fuel <;> rfl

theorem self_mem_ancChain (m : KinematicModel) (i : ℕ) : i ∈ ancChain m i := by
  unfold ancChain
  cases i with
  | zero => simp [ancChainAux_zero_idx]
  | succ i' => simp [ancChainAux]

theorem ancChainAux_stable (m : KinematicModel) (hwf : WellFormed m) :
    ∀ i, i ≤ njoints m → ∀ fuel, i ≤ fuel →
      ancChainAux m fuel i = ancChain m i := by
  intro i
  induction i using Nat.strong_induction_on with
  | _ i IH =>
    match i with
    | 0 => intro _ fuel _; rw [ancChainAux_zero_idx]; rfl
    | j + 1 =>
      intro hin fuel hfuel
      match fuel, hfuel with
      | fu + 1, _ =>
        have hp : m.parent (j + 1) < j + 1 := by
          apply hwf
          simp only [List.mem_range'_1]
          omega
        show (j + 1) :: ancChainAux m fu (m.parent (j + 1)) = ancChain m (j + 1)
        show _ = (j + 1) :: ancChainAux m j (m.parent (j + 1))
        rw [IH _ hp (by omega) fu (by omega), IH _ hp (by omega) j (by omega)]

/-- On a well-formed model the ancestor chain of a non-root joint peels off
the joint itself. -/
theorem ancChain_rec (m : KinematicModel) (hwf : WellFormed m)
    {i : ℕ} (h1 : 1 ≤ i) (h2 : i ≤ njoints m) :
    ancChain m i = i :: ancChain m (m.parent i) := by
  match i, h1 with
  | j + 1, _ =>
    have hp : m.parent (j + 1) < j + 1 := by
      apply hwf
      simp only [List.mem_range'_1]
      omega
    show (j + 1) :: ancChainAux m j (m.parent (j + 1)) = _
    rw [ancChainAux_stable m hwf _ (by omega) j (by omega)]

theorem mem_ancChain_le (m : KinematicModel) (hwf : WellFormed m) :
    ∀ i, i ≤ njoints m → ∀ j ∈ ancChain m i, j ≤ i := by
  intro i
  induction i using Nat.strong_induction_on with
  | _ i IH =>
    intro hin j hj
    match i with
    | 0 =>
      have : ancChain m 0 = [0] := rfl
      rw [this, List.mem_singleton] at hj
      omega
    | k + 1 =>
      have hp : m.parent (k + 1) < k + 1 := by
        apply hwf
        simp only [List.mem_range'_1]
        omega
      rw [ancChain_rec m hwf (by omega) hin, List.mem_cons] at hj
      rcases hj with hj | hj
      · omega
      · have := IH _ hp (by omega) j hj
        omega

theorem parent_mem_ancChain (m : KinematicModel) (hwf : WellFormed m) :
    ∀ i, i ≤ njoints m → ∀ c ∈ ancChain m i, 1 ≤ c →
      m.parent c ∈ ancChain m i := by
  intro i
  induction i using Nat.strong_induction_on with
  | _ i IH =>
    intro hin c hc hc1
    match i with
    | 0 =>
      have : ancChain m 0 = [0] := rfl
      rw [this, List.mem_singleton] at hc
      omega
    | k + 1 =>
      have hp : m.parent (k + 1) < k + 1 := by
        apply hwf
        simp only [List.mem_range'_1]
        omega
      rw [ancChain_rec m hwf (by omega) hin] at hc ⊢
      rw [List.mem_cons] at hc
      rcases hc with hc | hc
      · subst hc
        exact List.mem_cons_of_mem _ (self_mem_ancChain m _)
      · exact List.mem_cons_of_mem _ (IH _ hp (by omega) c hc hc1)

/-- The index set of real joints, 1..N. -/
def jointIdx (m : KinematicModel) : Finset ℕ := Finset.Icc 1 (njoints m)

/-- Total force collected at joint `j` from its subtree: every joint having
`j` as an ancestor (itself included) contributes its forward-pass force `g`,
transported up the chain into `j`'s frame. -/
def fSubOf (m : KinematicModel) (q : List ℚ) (g : ℕ → Force) (j : ℕ) : Force :=
  Finset.sum (jointIdx m) fun i =>
    if j ∈ ancChain m i then liftTo m q j i (g i) else 0

theorem mem_jointIdx (m : KinematicModel) {c : ℕ} :
    c ∈ jointIdx m ↔ 1 ≤ c ∧ c ≤ njoints m := by
  simp [jointIdx, Finset.mem_Icc]

theorem liftOne_sum (m : KinematicModel) (q : List ℚ) (c : ℕ)
    (s : Finset ℕ) (h : ℕ → Force) :
    liftOne m q c (Finset.sum s h) = Finset.sum s (fun i => liftOne m q c (h i)) :=
  map_sum (AddMonoidHom.mk' (liftOne m q c)
    (fun a b => actForce_add (relPlacement m q c) a b)) h s

theorem anc_regroup (m : KinematicModel) (q : List ℚ) (hwf : WellFormed m)
    {k : ℕ} (hk1 : 1 ≤ k) :
    ∀ i', i' ≤ njoints m → 1 ≤ i' → ∀ x : Force,
      Finset.sum (jointIdx m) (fun c =>
        if m.parent c = k ∧ c ∈ ancChain m i'
        then liftOne m q c (liftTo m q c i' x) else 0)
      = if k ∈ ancChain m i' ∧ i' ≠ k then liftTo m q k i' x else 0 := by
  intro i'
  induction i' using Nat.strong_induction_on with
  | _ i' IH =>
    intro hin hi1 x
    by_cases hik : i' = k
    · subst hik
      rw [if_neg (fun hh => hh.2 rfl)]
      apply Finset.sum_eq_zero
      intro c hc
      have hcb := (mem_jointIdx m).mp hc
      by_cases hcc : m.parent c = i' ∧ c ∈ ancChain m i'
      · exfalso
        have hcle := mem_ancChain_le m hwf i' hin c hcc.2
        have hpc : m.parent c < c := hwf c (by simp only [List.mem_range'_1]; omega)
        omega
      · rw [if_neg hcc]
    · by_cases hkanc : k ∈ ancChain m i'
      · have hrec : ancChain m i' = i' :: ancChain m (m.parent i') :=
          ancChain_rec m hwf hi1 hin
        have hkanc' : k ∈ ancChain m (m.parent i') := by
          rw [hrec] at hkanc
          rcases List.mem_cons.mp hkanc with h | h
          · exact absurd h.symm hik
          · exact h
        have hp : m.parent i' < i' := hwf i' (by simp only [List.mem_range'_1]; omega)
        have hp1 : 1 ≤ m.parent i' := by
          rcases Nat.eq_zero_or_pos (m.parent i') with h0 | h1
          · exfalso
            rw [h0] at hkanc'
            have hz : ancChain m 0 = [0] := rfl
            rw [hz, List.mem_singleton] at hkanc'
            omega
          · exact h1
        by_cases hpk : m.parent i' = k
        · -- the unique contributing child of k on the chain is i' itself
          have hval : liftTo m q k i' x = liftOne m q i' x := by
            rw [liftTo_rec m q k hwf hi1 hin hik x, hpk, liftTo_self]
          rw [if_pos ⟨hkanc, hik⟩, hval]
          have hcong : Finset.sum (jointIdx m) (fun c =>
              if m.parent c = k ∧ c ∈ ancChain m i'
              then liftOne m q c (liftTo m q c i' x) else 0)
              = Finset.sum (jointIdx m) (fun c =>
              if c = i' then liftOne m q i' x else 0) := by
            apply Finset.sum_congr rfl
            intro c hc
            have hcb := (mem_jointIdx m).mp hc
            by_cases hci : c = i'
            · subst hci
              rw [if_pos ⟨hpk, self_mem_ancChain m c⟩, if_pos rfl, liftTo_self]
            · rw [if_neg ?_, if_neg hci]
              intro hh
              have hcanc : c ∈ ancChain m (m.parent i') := by
                rw [hrec] at hh
                rcases List.mem_cons.mp hh.2 with h | h
                · exact absurd h hci
                · exact h
              rw [hpk] at hcanc
              have hcle := mem_ancChain_le m hwf k (by omega) c hcanc
              have hpc : m.parent c < c := hwf c (by simp only [List.mem_range'_1]; omega)
              omega
          rw [hcong, Finset.sum_ite_eq' (jointIdx m) i' (fun _ => liftOne m q i' x),
            if_pos ((mem_jointIdx m).mpr ⟨hi1, hin⟩)]
        · -- step to the parent and use the induction hypothesis
          have hcong : Finset.sum (jointIdx m) (fun c =>
              if m.parent c = k ∧ c ∈ ancChain m i'
              then liftOne m q c (liftTo m q c i' x) else 0)
              = Finset.sum (jointIdx m) (fun c =>
              if m.parent c = k ∧ c ∈ ancChain m (m.parent i')
              then liftOne m q c (liftTo m q c (m.parent i') (liftOne m q i' x))
              else 0) := by
            apply Finset.sum_congr rfl
            intro c hc
            have hcb := (mem_jointIdx m).mp hc
            by_cases hci : c = i'
            · subst hci
              rw [if_neg (fun hh => hpk hh.1), if_neg ?_]
              intro hh
              have hcle := mem_ancChain_le m hwf (m.parent c) (by omega) c hh.2
              omega
            · have hiff : (m.parent c = k ∧ c ∈ ancChain m i')
                  ↔ (m.parent c = k ∧ c ∈ ancChain m (m.parent i')) := by
                constructor
                · intro hh
                  refine ⟨hh.1, ?_⟩
                  rw [hrec] at hh
                  rcases List.mem_cons.mp hh.2 with h | h
                  · exact absurd h hci
                  · exact h
                · intro hh
                  refine ⟨hh.1, ?_⟩
                  rw [hrec]
                  exact List.mem_cons_of_mem _ hh.2
              by_cases hcc : m.parent c = k ∧ c ∈ ancChain m (m.parent i')
              · rw [if_pos (hiff.mpr hcc), if_pos hcc]
                have hcle := mem_ancChain_le m hwf (m.parent i') (by omega) c hcc.2
                rw [liftTo_rec m q c hwf hi1 hin (by omega) x]
              · rw [if_neg (fun hh => hcc (hiff.mp hh)), if_neg hcc]
          rw [hcong, IH _ hp (by omega) (by omega) (liftOne m q i' x),
            if_pos ⟨hkanc', hpk⟩, if_pos ⟨hkanc, hik⟩,
            ← liftTo_rec m q k hwf hi1 hin hik x]
      · rw [if_neg (fun hh => hkanc hh.1)]
        apply Finset.sum_eq_zero
        intro c hc
        have hcb := (mem_jointIdx m).mp hc
        rw [if_neg ?_]
        intro hh
        exact hkanc (hh.1 ▸ parent_mem_ancChain m hwf i' hin c hh.2 hcb.1)

/-- Recursion satisfied by the subtree force sums on a well-formed model:
`fSub(k) = g(k) + Σ_{c child of k} X_c^T · fSub(c)`. -/
theorem fSub_rec (m : KinematicModel) (q : List ℚ) (hwf : WellFormed m)
    {k : ℕ} (hk1 : 1 ≤ k) (hk2 : k ≤ njoints m) (g : ℕ → Force) :
    fSubOf m q g k = g k + Finset.sum (jointIdx m) (fun c =>
      if m.parent c = k then liftOne m q c (fSubOf m q g c) else 0) := by
  unfold fSubOf
  have hsplit : Finset.sum (jointIdx m) (fun i =>
      if k ∈ ancChain m i then liftTo m q k i (g i) else 0)
      = Finset.sum (jointIdx m) (fun i =>
          (if i = k then g k else 0) +
          (if k ∈ ancChain m i ∧ i ≠ k then liftTo m q k i (g i) else 0)) := by
    apply Finset.sum_congr rfl
    intro i hi
    by_cases hik : i = k
    · subst hik
      rw [if_pos (self_mem_ancChain m i), liftTo_self, if_pos rfl,
        if_neg (fun hh => hh.2 rfl), add_zero]
    · rw [if_neg hik, zero_add]
      by_cases hm : k ∈ ancChain m i
      · rw [if_pos hm, if_pos ⟨hm, hik⟩]
      · rw [if_neg hm, if_neg (fun hh => hm hh.1)]
  rw [hsplit, Finset.sum_add_distrib,
    Finset.sum_ite_eq' (jointIdx m) k (fun _ => g k),
    if_pos ((mem_jointIdx m).mpr ⟨hk1, hk2⟩)]
  congr 1
  have hreg : Finset.sum (jointIdx m) (fun i =>
      if k ∈ ancChain m i ∧ i ≠ k then liftTo m q k i (g i) else 0)
      = Finset.sum (jointIdx m) (fun i => Finset.sum (jointIdx m) (fun c =>
          if m.parent c = k ∧ c ∈ ancChain m i
          then liftOne m q c (liftTo m q c i (g i)) else 0)) := by
    apply Finset.sum_congr rfl
    intro i hi
    have hib := (mem_jointIdx m).mp hi
    rw [anc_regroup m q hwf hk1 i hib.2 hib.1 (g i)]
  rw [hreg, Finset.sum_comm]
  apply Finset.sum_congr rfl
  intro c hc
  by_cases hpc : m.parent c = k
  · rw [if_pos hpc]
    rw [liftOne_sum]
    apply Finset.sum_congr rfl
    intro i hi
    by_cases hm : c ∈ ancChain m i
    · rw [if_pos ⟨hpc, hm⟩, if_pos hm]
    · rw [if_neg (fun hh => hm hh.2), if_neg hm]
      unfold liftOne
      rw [actForce_zero]
  · rw [if_neg hpc]
    apply Finset.sum_eq_zero
    intro i hi
    rw [if_neg (fun hh => hpc hh.1)]

/-! ## Layout of the flat tau vector: the joint slices tile `0..nv`. -/

theorem vOffset_le_succ (m : KinematicModel) (i : ℕ) :
    vOffset m i ≤ vOffset m (i + 1) := by
  unfold vOffset
  have h : i + 1 - 1 = (i - 1) + 1 ∨ i = 0 := by omega
  rcases h with h | h
  · rw [h, List.take_succ, List.map_append, List.sum_append]
    exact Nat.le_add_right _ _
  · subst h
    simp

theorem vOffset_mono (m : KinematicModel) {i1 i2 : ℕ} (h : i1 ≤ i2) :
    vOffset m i1 ≤ vOffset m i2 := by
  induction i2 with
  | zero =>
    have : i1 = 0 := by omega
    subst this
    exact Nat.le_refl _
  | succ j IH =>
    by_cases hj : i1 ≤ j
    · exact Nat.le_trans (IH hj) (vOffset_le_succ m j)
    · have : i1 = j + 1 := by omega
      subst this
      exact Nat.le_refl _

theorem vOffset_succ_eq (m : KinematicModel) {i : ℕ} (h1 : 1 ≤ i)
    (h2 : i ≤ njoints m) :
    vOffset m (i + 1) = vOffset m i + nvAt m i := by
  unfold vOffset nvAt jointAt
  have hlt : i - 1 < m.joints.length := by
    unfold njoints at h2
    omega
  have hstep : i + 1 - 1 = (i - 1) + 1 := by omega
  rw [hstep, List.take_succ, List.map_append, List.sum_append,
    List.getElem?_eq_getElem hlt]
  simp [List.getD_eq_getElem?_getD, List.getElem?_eq_getElem hlt]

theorem vOffset_njoints_succ (m : KinematicModel) :
    vOffset m (njoints m + 1) = nvTot m := by
  unfold vOffset nvTot njoints
  rw [show m.joints.length + 1 - 1 = m.joints.length from rfl, List.take_length]

/-- Distinct joints own disjoint column/tau slices. -/
theorem slice_disjoint (m : KinematicModel) {i i' t : ℕ} (h1 : 1 ≤ i)
    (h2 : i ≤ njoints m) (h1' : 1 ≤ i') (h2' : i' ≤ njoints m) (hne : i ≠ i')
    (ht : vOffset m i ≤ t ∧ t < vOffset m i + nvAt m i)
    (ht' : vOffset m i' ≤ t ∧ t < vOffset m i' + nvAt m i') : False := by
  rcases Nat.lt_or_ge i i' with hlt | hge
  · have hs : vOffset m i + nvAt m i ≤ vOffset m i' := by
      rw [← vOffset_succ_eq m h1 h2]
      exact vOffset_mono m (by omega)
    omega
  · have hlt : i' < i := by omega
    have hs : vOffset m i' + nvAt m i' ≤ vOffset m i := by
      rw [← vOffset_succ_eq m h1' h2']
      exact vOffset_mono m (by omega)
    omega

/-- Every flat index below `nv` falls in exactly one joint's slice. -/
theorem slice_cover (m : KinematicModel) :
    ∀ i' ≤ njoints m, ∀ t, t < vOffset m (i' + 1) →
      ∃ i, 1 ≤ i ∧ i ≤ i' ∧ vOffset m i ≤ t ∧ t < vOffset m i + nvAt m i := by
  intro i'
  induction i' with
  | zero =>
    intro _ t ht
    exfalso
    have : vOffset m (0 + 1) = 0 := rfl
    omega
  | succ j IH =>
    intro hin t ht
    by_cases hj : t < vOffset m (j + 1)
    · obtain ⟨i, hi⟩ := IH (by omega) t hj
      exact ⟨i, hi.1, by omega, hi.2.2⟩
    · refine ⟨j + 1, by omega, by omega, by omega, ?_⟩
      rw [vOffset_succ_eq m (by omega) hin] at ht
      omega

theorem slice_cover_tot (m : KinematicModel) {t : ℕ} (ht : t < nvTot m) :
    ∃ i, 1 ≤ i ∧ i ≤ njoints m ∧ vOffset m i ≤ t ∧ t < vOffset m i + nvAt m i := by
  have := slice_cover m (njoints m) (Nat.le_refl _) t
    (by rw [vOffset_njoints_succ]; exact ht)
  obtain ⟨i, hi⟩ := this
  exact ⟨i, hi.1, hi.2.1, hi.2.2⟩

/-! ## The backward pass as a descending partial sweep -/

/-- The backward pass restricted to the joints above `k`: the fold state
after the descending loop has processed joints `n, n-1, ..., k+1`. -/
def sweepFrom (m : KinematicModel) (q : List ℚ) (g : ℕ → Force) (k : ℕ) :
    (ℕ → Force) × (ℕ → ℚ) :=
  ((List.range' (k + 1) (njoints m - k)).reverse).foldl (bwdStep m q) (g, fun _ => 0)

theorem sweepFrom_top (m : KinematicModel) (q : List ℚ) (g : ℕ → Force) :
    sweepFrom m q g (njoints m) = (g, fun _ => 0) := by
  unfold sweepFrom
  rw [Nat.sub_self]
  rfl

theorem bwdSweep_eq_sweepFrom (m : KinematicModel) (q : List ℚ) (g : ℕ → Force) :
    bwdSweep m q g = sweepFrom m q g 0 := rfl

theorem sweepFrom_step (m : KinematicModel) (q : List ℚ) (g : ℕ → Force)
    {k : ℕ} (hk1 : 1 ≤ k) (hk2 : k ≤ njoints m) :
    sweepFrom m q g (k - 1) = bwdStep m q (sweepFrom m q g k) k := by
  unfold sweepFrom
  have h1 : njoints m - (k - 1) = (njoints m - k) + 1 := by omega
  have h2 : (k - 1) + 1 = k := by omega
  rw [h1, h2, List.range'_succ, List.reverse_cons, List.foldl_append,
    List.foldl_cons, List.foldl_nil]

theorem bwdStep_fst (m : KinematicModel) (q : List ℚ)
    (st : (ℕ → Force) × (ℕ → ℚ)) (i j : ℕ) :
    (bwdStep m q st i).1 j
      = if j = m.parent i
        then st.1 j + SE3.actForce (relPlacement m q i) (st.1 i)
        else st.1 j := rfl

theorem bwdStep_snd (m : KinematicModel) (q : List ℚ)
    (st : (ℕ → Force) × (ℕ → ℚ)) (i t : ℕ) :
    (bwdStep m q st i).2 t
      = if h : vOffset m i ≤ t ∧ t < vOffset m i + nvAt m i
        then tauSlice m q i ((bwdStep m q st i).1 i) ⟨t - vOffset m i, by omega⟩
        else st.2 t := rfl

/-- Invariant of the descending backward pass: after the joints above
`n - d` have been processed, the force state of every joint holds its own
forward-pass force plus the transported subtree totals of its already
processed children, and the tau entries of the processed joints hold their
final generalized forces `S_i^T · fSub(i)`. -/
theorem sweep_invariant (m : KinematicModel) (q : List ℚ) (hwf : WellFormed m)
    (g : ℕ → Force) :
    ∀ d, d ≤ njoints m →
      (∀ j, (sweepFrom m q g (njoints m - d)).1 j
        = g j + Finset.sum (jointIdx m) (fun c =>
            if m.parent c = j ∧ njoints m - d < c
            then liftOne m q c (fSubOf m q g c) else 0)) ∧
      (∀ i, njoints m - d < i → i ≤ njoints m →
        ∀ t, ∀ ht1 : vOffset m i ≤ t, ∀ ht2 : t < vOffset m i + nvAt m i,
          (sweepFrom m q g (njoints m - d)).2 t
            = tauSlice m q i (fSubOf m q g i) ⟨t - vOffset m i, by omega⟩) := by
  intro d
  induction d with
  | zero =>
    intro _
    rw [Nat.sub_zero, sweepFrom_top]
    constructor
    · intro j
      have hz : Finset.sum (jointIdx m) (fun c =>
          if m.parent c = j ∧ njoints m < c
          then liftOne m q c (fSubOf m q g c) else 0) = 0 := by
        apply Finset.sum_eq_zero
        intro c hc
        have hcb := (mem_jointIdx m).mp hc
        rw [if_neg]
        intro hh
        omega
      rw [hz, add_zero]
    · intro i hi1 hi2
      exact absurd hi2 (by omega)
  | succ d IH =>
    intro hdn
    obtain ⟨IHF, IHT⟩ := IH (by omega)
    have hK1 : 1 ≤ njoints m - d := by omega
    have hK2 : njoints m - d ≤ njoints m := by omega
    have hstep : sweepFrom m q g (njoints m - (d + 1))
        = bwdStep m q (sweepFrom m q g (njoints m - d)) (njoints m - d) := by
      have he : njoints m - (d + 1) = (njoints m - d) - 1 := by omega
      rw [he]
      exact sweepFrom_step m q g hK1 hK2
    have hparK : m.parent (njoints m - d) < njoints m - d :=
      hwf _ (by simp only [List.mem_range'_1]; omega)
    have hFK : (sweepFrom m q g (njoints m - d)).1 (njoints m - d)
        = fSubOf m q g (njoints m - d) := by
      rw [IHF (njoints m - d)]
      have hcong : Finset.sum (jointIdx m) (fun c =>
          if m.parent c = njoints m - d ∧ njoints m - d < c
          then liftOne m q c (fSubOf m q g c) else 0)
          = Finset.sum (jointIdx m) (fun c =>
          if m.parent c = njoints m - d
          then liftOne m q c (fSubOf m q g c) else 0) := by
        apply Finset.sum_congr rfl
        intro c hc
        have hcb := (mem_jointIdx m).mp hc
        by_cases hpc : m.parent c = njoints m - d
        · have hcgt : njoints m - d < c := by
            have := hwf c (by simp only [List.mem_range'_1]; omega)
            omega
          rw [if_pos ⟨hpc, hcgt⟩, if_pos hpc]
        · rw [if_neg (fun hh => hpc hh.1), if_neg hpc]
      rw [hcong]
      exact (fSub_rec m q hwf hK1 hK2 g).symm
    have hN1K : (bwdStep m q (sweepFrom m q g (njoints m - d)) (njoints m - d)).1
        (njoints m - d) = fSubOf m q g (njoints m - d) := by
      rw [bwdStep_fst, if_neg (by omega), hFK]
    constructor
    · intro j
      rw [hstep, bwdStep_fst]
      have hsum : Finset.sum (jointIdx m) (fun c =>
          if m.parent c = j ∧ njoints m - (d + 1) < c
          then liftOne m q c (fSubOf m q g c) else 0)
          = Finset.sum (jointIdx m) (fun c =>
              if m.parent c = j ∧ njoints m - d < c
              then liftOne m q c (fSubOf m q g c) else 0)
            + (if m.parent (njoints m - d) = j
               then liftOne m q (njoints m - d) (fSubOf m q g (njoints m - d))
               else 0) := by
        have hpt : ∀ c ∈ jointIdx m,
            (if m.parent c = j ∧ njoints m - (d + 1) < c
             then liftOne m q c (fSubOf m q g c) else 0)
            = (if m.parent c = j ∧ njoints m - d < c
               then liftOne m q c (fSubOf m q g c) else 0)
              + (if c = njoints m - d
                 then (if m.parent (njoints m - d) = j
                       then liftOne m q (njoints m - d) (fSubOf m q g (njoints m - d))
                       else 0)
                 else 0) := by
          intro c hc
          have hcb := (mem_jointIdx m).mp hc
          by_cases hcK : c = njoints m - d
          · by_cases hpj : m.parent (njoints m - d) = j
            · rw [hcK, if_pos ⟨hpj, by omega⟩, if_neg (by omega), if_pos rfl,
                if_pos hpj, zero_add]
            · rw [hcK, if_neg (fun hh => hpj hh.1), if_neg (fun hh => hpj hh.1),
                if_pos rfl, if_neg hpj, add_zero]
          · have hiff : (m.parent c = j ∧ njoints m - (d + 1) < c)
                ↔ (m.parent c = j ∧ njoints m - d < c) := by
              constructor <;> (intro hh; exact ⟨hh.1, by omega⟩)
            rw [if_congr hiff rfl rfl, if_neg hcK, add_zero]
        rw [Finset.sum_congr rfl hpt, Finset.sum_add_distrib,
          Finset.sum_ite_eq' (jointIdx m) (njoints m - d) _,
          if_pos ((mem_jointIdx m).mpr ⟨hK1, hK2⟩)]
      rw [hsum]
      by_cases hj : j = m.parent (njoints m - d)
      · rw [if_pos hj, IHF j, hFK, if_pos hj.symm]
        show _ + liftOne m q _ _ = _
        abel
      · rw [if_neg hj, IHF j, if_neg (fun hh => hj hh.symm), add_zero]
    · intro i hi1 hi2 t ht1 ht2
      rw [hstep, bwdStep_snd]
      by_cases hiK : i = njoints m - d
      · subst hiK
        rw [dif_pos ⟨ht1, ht2⟩, hN1K]
      · have hgt : njoints m - d < i := by omega
        rw [dif_neg ?_]
        · exact IHT i hgt hi2 t ht1 ht2
        · intro hh
          exact slice_disjoint m hK1 hK2 (by omega) hi2
            (fun he => hiK he.symm) hh ⟨ht1, ht2⟩

/-- Bridge: the tau entry the backward pass writes at flat index `t` inside
joint `i`'s slice equals `S_i^T` applied to the subtree force sum at `i`. -/
theorem bwdSweep_tau (m : KinematicModel) (q : List ℚ) (hwf : WellFormed m)
    (g : ℕ → Force) {i : ℕ} (hi1 : 1 ≤ i) (hi2 : i ≤ njoints m) {t : ℕ}
    (ht1 : vOffset m i ≤ t) (ht2 : t < vOffset m i + nvAt m i) :
    (bwdSweep m q g).2 t
      = tauSlice m q i (fSubOf m q g i) ⟨t - vOffset m i, by omega⟩ := by
  have H := (sweep_invariant m q hwf g (njoints m) (Nat.le_refl _)).2
  rw [Nat.sub_self] at H
  rw [bwdSweep_eq_sweepFrom]
  exact H i (by omega) hi2 t ht1 ht2

/-! ## Linearity structure of the forward passes -/

theorem cross3_zero_left (b : Vec3) : cross3 (0 : Vec3) b = 0 := by
  funext i
  simp only [cross3, Pi.zero_apply]
  split <;> [skip; split] <;> ring

theorem crossMF_zero_left (f : Force) : crossMF (0 : Motion) f = 0 := by
  show Force.mk _ _ = _
  simp [crossMF, motionZero_def, cross3_zero_left, forceZero_def]

/-- At zero velocity input the velocity forward pass is identically zero. -/
theorem vAux_zero_vec (m : KinematicModel) (q : List ℚ) :
    ∀ fuel i, vAux m q (zeroVec (nvTot m)) fuel i = 0 := by
  intro fuel
  induction fuel with
  | zero => intro i; cases i <;> rfl
  | succ fu IH =>
    intro i
    cases i with
    | zero => rfl
    | succ j =>
      show SE3.actInvMotion _ (vAux m q _ fu (m.parent (j + 1))) + _ = 0
      rw [IH, actInvMotion_zero, vSliceOf_zeroVec, subspaceMotion_zero, add_zero]

theorem vJoint_zero_vec (m : KinematicModel) (q : List ℚ) (i : ℕ) :
    vJoint m q (zeroVec (nvTot m)) i = 0 :=
  vAux_zero_vec m q i i

/-- The acceleration recursion separates the velocity-dependent bias from the
acceleration-driven part: the four-point identity
`a(v,a) + a(0,0) = a(0,a) + a(v,0)`. -/
theorem aAux_four_vel (m : KinematicModel) (q v a : List ℚ) :
    ∀ fuel i,
      aAux m q v a fuel i + aAux m q (zeroVec (nvTot m)) (zeroVec (nvTot m)) fuel i
        = aAux m q (zeroVec (nvTot m)) a fuel i + aAux m q v (zeroVec (nvTot m)) fuel i := by
  intro fuel
  induction fuel with
  | zero => intro i; cases i <;> rfl
  | succ fu IH =>
    intro i
    cases i with
    | zero => rfl
    | succ j =>
      show SE3.actInvMotion _ (aAux m q v a fu (m.parent (j + 1))) + _ + _ + _
          + (SE3.actInvMotion _ (aAux m q _ _ fu (m.parent (j + 1))) + _ + _ + _)
          = SE3.actInvMotion _ (aAux m q _ a fu (m.parent (j + 1))) + _ + _ + _
          + (SE3.actInvMotion _ (aAux m q v _ fu (m.parent (j + 1))) + _ + _ + _)
      have hX : SE3.actInvMotion (relPlacement m q (j + 1)) (aAux m q v a fu (m.parent (j + 1)))
          + SE3.actInvMotion (relPlacement m q (j + 1))
              (aAux m q (zeroVec (nvTot m)) (zeroVec (nvTot m)) fu (m.parent (j + 1)))
          = SE3.actInvMotion (relPlacement m q (j + 1))
              (aAux m q (zeroVec (nvTot m)) a fu (m.parent (j + 1)))
            + SE3.actInvMotion (relPlacement m q (j + 1))
              (aAux m q v (zeroVec (nvTot m)) fu (m.parent (j + 1))) := by
        rw [← actInvMotion_add, ← actInvMotion_add, IH]
      set A1 := SE3.actInvMotion (relPlacement m q (j + 1)) (aAux m q v a fu (m.parent (j + 1)))
      set A2 := SE3.actInvMotion (relPlacement m q (j + 1))
        (aAux m q (zeroVec (nvTot m)) (zeroVec (nvTot m)) fu (m.parent (j + 1)))
      set A3 := SE3.actInvMotion (relPlacement m q (j + 1))
        (aAux m q (zeroVec (nvTot m)) a fu (m.parent (j + 1)))
      set A4 := SE3.actInvMotion (relPlacement m q (j + 1))
        (aAux m q v (zeroVec (nvTot m)) fu (m.parent (j + 1)))
      set Sa := subspaceMotion m q (j + 1) (vSliceOf m a (j + 1))
      set Sz := subspaceMotion m q (j + 1) (vSliceOf m (zeroVec (nvTot m)) (j + 1))
      set Cv := crossMM (vJoint m q v (j + 1))
        (subspaceMotion m q (j + 1) (vSliceOf m v (j + 1)))
      set Cz := crossMM (vJoint m q (zeroVec (nvTot m)) (j + 1))
        (subspaceMotion m q (j + 1) (vSliceOf m (zeroVec (nvTot m)) (j + 1)))
      set Dv := driftMotion m q v (j + 1)
      set Dz := driftMotion m q (zeroVec (nvTot m)) (j + 1)
      have h1 : A1 + Sa + Cv + Dv + (A2 + Sz + Cz + Dz)
          = (A1 + A2) + (Sa + Sz + Cv + Dv + Cz + Dz) := by abel
      have h2 : A3 + Sa + Cz + Dz + (A4 + Sz + Cv + Dv)
          = (A3 + A4) + (Sa + Sz + Cv + Dv + Cz + Dz) := by abel
      rw [h1, h2, hX]

/-- Componentwise sum of flat vectors. -/
def vecAdd (x y : List ℚ) : List ℚ := List.zipWith (fun s t => s + t) x y

/-- Componentwise difference of flat vectors. -/
def vecSub (x y : List ℚ) : List ℚ := List.zipWith (fun s t => s - t) x y

theorem vecAdd_getD : ∀ (x y : List ℚ), x.length = y.length → ∀ t,
    (vecAdd x y).getD t 0 = x.getD t 0 + y.getD t 0 := by
  intro x
  induction x with
  | nil =>
    intro y h t
    have hy : y = [] := List.length_eq_zero.mp h.symm
    subst hy
    show (0 : ℚ) = 0 + 0
    rw [add_zero]
  | cons s x' IH =>
    intro y h t
    cases y with
    | nil => simp at h
    | cons u y' =>
      cases t with
      | zero => rfl
      | succ t' =>
        show (vecAdd x' y').getD t' 0 = _
        exact IH y' (by simpa using h) t'

theorem vSliceOf_vecAdd (m : KinematicModel) {x y : List ℚ}
    (h : x.length = y.length) (i : ℕ) :
    vSliceOf m (vecAdd x y) i = fun k => vSliceOf m x i k + vSliceOf m y i k := by
  funext k
  exact vecAdd_getD x y h _

theorem subspaceMotion_add (m : KinematicModel) (q : List ℚ) (i : ℕ)
    (w1 w2 : Fin (nvAt m i) → ℚ) :
    subspaceMotion m q i (fun k => w1 k + w2 k)
      = subspaceMotion m q i w1 + subspaceMotion m q i w2 := by
  unfold subspaceMotion
  rw [show (fun k => w1 k + w2 k) = w1 + w2 from rfl, Matrix.mulVec_add]
  rfl

/-- Four-point identity in the acceleration argument at fixed velocity:
`a(v, a1+a2) + a(v, 0) = a(v, a1) + a(v, a2)`. -/
theorem aAux_four_acc (m : KinematicModel) (q v a1 a2 : List ℚ)
    (hlen : a1.length = a2.length) :
    ∀ fuel i,
      aAux m q v (vecAdd a1 a2) fuel i + aAux m q v (zeroVec (nvTot m)) fuel i
        = aAux m q v a1 fuel i + aAux m q v a2 fuel i := by
  intro fuel
  induction fuel with
  | zero => intro i; cases i <;> rfl
  | succ fu IH =>
    intro i
    cases i with
    | zero => rfl
    | succ j =>
      show SE3.actInvMotion _ (aAux m q v (vecAdd a1 a2) fu (m.parent (j + 1))) + _ + _ + _
          + (SE3.actInvMotion _ (aAux m q v (zeroVec (nvTot m)) fu (m.parent (j + 1))) + _ + _ + _)
          = SE3.actInvMotion _ (aAux m q v a1 fu (m.parent (j + 1))) + _ + _ + _
          + (SE3.actInvMotion _ (aAux m q v a2 fu (m.parent (j + 1))) + _ + _ + _)
      have hX : SE3.actInvMotion (relPlacement m q (j + 1))
            (aAux m q v (vecAdd a1 a2) fu (m.parent (j + 1)))
          + SE3.actInvMotion (relPlacement m q (j + 1))
            (aAux m q v (zeroVec (nvTot m)) fu (m.parent (j + 1)))
          = SE3.actInvMotion (relPlacement m q (j + 1))
            (aAux m q v a1 fu (m.parent (j + 1)))
          + SE3.actInvMotion (relPlacement m q (j + 1))
            (aAux m q v a2 fu (m.parent (j + 1))) := by
        rw [← actInvMotion_add, ← actInvMotion_add, IH]
      have hS : subspaceMotion m q (j + 1) (vSliceOf m (vecAdd a1 a2) (j + 1))
          + subspaceMotion m q (j + 1) (vSliceOf m (zeroVec (nvTot m)) (j + 1))
          = subspaceMotion m q (j + 1) (vSliceOf m a1 (j + 1))
          + subspaceMotion m q (j + 1) (vSliceOf m a2 (j + 1)) := by
        rw [vSliceOf_vecAdd m hlen, subspaceMotion_add, vSliceOf_zeroVec,
          subspaceMotion_zero, add_zero]
      set A1 := SE3.actInvMotion (relPlacement m q (j + 1))
        (aAux m q v (vecAdd a1 a2) fu (m.parent (j + 1)))
      set A2 := SE3.actInvMotion (relPlacement m q (j + 1))
        (aAux m q v (zeroVec (nvTot m)) fu (m.parent (j + 1)))
      set A3 := SE3.actInvMotion (relPlacement m q (j + 1))
        (aAux m q v a1 fu (m.parent (j + 1)))
      set A4 := SE3.actInvMotion (relPlacement m q (j + 1))
        (aAux m q v a2 fu (m.parent (j + 1)))
      set S12 := subspaceMotion m q (j + 1) (vSliceOf m (vecAdd a1 a2) (j + 1))
      set Sz := subspaceMotion m q (j + 1) (vSliceOf m (zeroVec (nvTot m)) (j + 1))
      set S1 := subspaceMotion m q (j + 1) (vSliceOf m a1 (j + 1))
      set S2 := subspaceMotion m q (j + 1) (vSliceOf m a2 (j + 1))
      set C := crossMM (vJoint m q v (j + 1))
        (subspaceMotion m q (j + 1) (vSliceOf m v (j + 1)))
      set D := driftMotion m q v (j + 1)
      have h1 : A1 + S12 + C + D + (A2 + Sz + C + D)
          = (A1 + A2) + (S12 + Sz) + (C + D + C + D) := by abel
      have h2 : A3 + S1 + C + D + (A4 + S2 + C + D)
          = (A3 + A4) + (S1 + S2) + (C + D + C + D) := by abel
      rw [h1, h2, hX, hS]

theorem fextAt_nil (i : ℕ) : fextAt [] i = 0 := rfl

theorem fInit_fext_split (m : KinematicModel) (q v a : List ℚ)
    (fext : List Force) (i : ℕ) :
    fInit m q v a fext i = fInit m q v a [] i + -(fextAt fext i) := by
  unfold fInit
  rw [fextAt_nil, sub_zero, sub_eq_add_neg]

theorem fInit_four_vel (m : KinematicModel) (q v a : List ℚ) (i : ℕ) :
    fInit m q v a [] i + fInit m q (zeroVec (nvTot m)) (zeroVec (nvTot m)) [] i
      = fInit m q (zeroVec (nvTot m)) a [] i + fInit m q v (zeroVec (nvTot m)) [] i := by
  unfold fInit
  rw [fextAt_nil]
  simp only [sub_zero]
  have hI : inertiaApply (jointAt m i).inertiaJ (aJoint m q v a i)
      + inertiaApply (jointAt m i).inertiaJ
          (aJoint m q (zeroVec (nvTot m)) (zeroVec (nvTot m)) i)
      = inertiaApply (jointAt m i).inertiaJ (aJoint m q (zeroVec (nvTot m)) a i)
      + inertiaApply (jointAt m i).inertiaJ (aJoint m q v (zeroVec (nvTot m)) i) := by
    rw [← inertiaApply_add, ← inertiaApply_add]
    show inertiaApply _ (aAux m q v a i i + aAux m q _ _ i i) = _
    rw [aAux_four_vel m q v a i i]
    rfl
  set Iva := inertiaApply (jointAt m i).inertiaJ (aJoint m q v a i)
  set Izz := inertiaApply (jointAt m i).inertiaJ
    (aJoint m q (zeroVec (nvTot m)) (zeroVec (nvTot m)) i)
  set Iza := inertiaApply (jointAt m i).inertiaJ (aJoint m q (zeroVec (nvTot m)) a i)
  set Ivz := inertiaApply (jointAt m i).inertiaJ (aJoint m q v (zeroVec (nvTot m)) i)
  set Cv := crossMF (vJoint m q v i)
    (inertiaApply (jointAt m i).inertiaJ (vJoint m q v i))
  set Cz := crossMF (vJoint m q (zeroVec (nvTot m)) i)
    (inertiaApply (jointAt m i).inertiaJ (vJoint m q (zeroVec (nvTot m)) i))
  have h1 : Iva + Cv + (Izz + Cz) = (Iva + Izz) + (Cv + Cz) := by abel
  have h2 : Iza + Cz + (Ivz + Cv) = (Iza + Ivz) + (Cv + Cz) := by abel
  rw [h1, h2, hI]

theorem fInit_four_acc (m : KinematicModel) (q v a1 a2 : List ℚ)
    (fext : List Force) (hlen : a1.length = a2.length) (i : ℕ) :
    fInit m q v (vecAdd a1 a2) fext i + fInit m q v (zeroVec (nvTot m)) fext i
      = fInit m q v a1 fext i + fInit m q v a2 fext i := by
  unfold fInit
  have hI : inertiaApply (jointAt m i).inertiaJ (aJoint m q v (vecAdd a1 a2) i)
      + inertiaApply (jointAt m i).inertiaJ (aJoint m q v (zeroVec (nvTot m)) i)
      = inertiaApply (jointAt m i).inertiaJ (aJoint m q v a1 i)
      + inertiaApply (jointAt m i).inertiaJ (aJoint m q v a2 i) := by
    rw [← inertiaApply_add, ← inertiaApply_add]
    show inertiaApply _ (aAux m q v _ i i + aAux m q v _ i i) = _
    rw [aAux_four_acc m q v a1 a2 hlen i i]
    rfl
  set I12 := inertiaApply (jointAt m i).inertiaJ (aJoint m q v (vecAdd a1 a2) i)
  set Iz := inertiaApply (jointAt m i).inertiaJ (aJoint m q v (zeroVec (nvTot m)) i)
  set I1 := inertiaApply (jointAt m i).inertiaJ (aJoint m q v a1 i)
  set I2 := inertiaApply (jointAt m i).inertiaJ (aJoint m q v a2 i)
  set Cv := crossMF (vJoint m q v i)
    (inertiaApply (jointAt m i).inertiaJ (vJoint m q v i))
  set fx := fextAt fext i
  have h1 : I12 + Cv - fx + (Iz + Cv - fx) = (I12 + Iz) + (Cv + Cv - fx - fx) := by abel
  have h2 : I1 + Cv - fx + (I2 + Cv - fx) = (I1 + I2) + (Cv + Cv - fx - fx) := by abel
  rw [h1, h2, hI]

theorem fSubOf_add (m : KinematicModel) (q : List ℚ) (g1 g2 : ℕ → Force) (j : ℕ) :
    fSubOf m q (fun c => g1 c + g2 c) j = fSubOf m q g1 j + fSubOf m q g2 j := by
  unfold fSubOf
  rw [← Finset.sum_add_distrib]
  apply Finset.sum_congr rfl
  intro c hc
  by_cases hm : j ∈ ancChain m c
  · rw [if_pos hm, if_pos hm, if_pos hm, liftTo_add]
  · rw [if_neg hm, if_neg hm, if_neg hm, add_zero]

theorem fSubOf_neg (m : KinematicModel) (q : List ℚ) (g : ℕ → Force) (j : ℕ) :
    fSubOf m q (fun c => -(g c)) j = -(fSubOf m q g j) := by
  unfold fSubOf
  rw [← Finset.sum_neg_distrib]
  apply Finset.sum_congr rfl
  intro c hc
  by_cases hm : j ∈ ancChain m c
  · rw [if_pos hm, if_pos hm, liftTo_neg]
  · rw [if_neg hm, if_neg hm, neg_zero]

/-- Force-level equations-of-motion split of the subtree sums. -/
theorem fSub_eom_split (m : KinematicModel) (q v a : List ℚ) (fext : List Force)
    (j : ℕ) :
    fSubOf m q (fInit m q v a fext) j
      = fSubOf m q (fInit m q (zeroVec (nvTot m)) a []) j
        + fSubOf m q (fInit m q v (zeroVec (nvTot m)) []) j
        - fSubOf m q (fInit m q (zeroVec (nvTot m)) (zeroVec (nvTot m)) []) j
        - fSubOf m q (fextAt fext) j := by
  have hsplit : fSubOf m q (fInit m q v a fext) j
      = fSubOf m q (fInit m q v a []) j - fSubOf m q (fextAt fext) j := by
    have hfun : (fInit m q v a fext)
        = fun c => fInit m q v a [] c + -(fextAt fext c) := by
      funext c
      exact fInit_fext_split m q v a fext c
    rw [hfun, fSubOf_add, fSubOf_neg, sub_eq_add_neg]
  have hfour : fSubOf m q (fInit m q v a []) j
      + fSubOf m q (fInit m q (zeroVec (nvTot m)) (zeroVec (nvTot m)) []) j
      = fSubOf m q (fInit m q (zeroVec (nvTot m)) a []) j
        + fSubOf m q (fInit m q v (zeroVec (nvTot m)) []) j := by
    rw [← fSubOf_add, ← fSubOf_add]
    have hfun : (fun c => fInit m q v a [] c
        + fInit m q (zeroVec (nvTot m)) (zeroVec (nvTot m)) [] c)
        = fun c => fInit m q (zeroVec (nvTot m)) a [] c
          + fInit m q v (zeroVec (nvTot m)) [] c := by
      funext c
      exact fInit_four_vel m q v a c
    rw [hfun]
  rw [hsplit]
  have hthis : fSubOf m q (fInit m q v a []) j
      = fSubOf m q (fInit m q (zeroVec (nvTot m)) a []) j
        + fSubOf m q (fInit m q v (zeroVec (nvTot m)) []) j
        - fSubOf m q (fInit m q (zeroVec (nvTot m)) (zeroVec (nvTot m)) []) j := by
    rw [eq_sub_iff_add_eq]
    exact hfour
  rw [hthis]

/-- Entry `t` of the external generalized-force term `J_ext^T · f_ext`: for
the joint `i` owning flat index `t`, the value `S_i(q)^T` applied to the sum
of the external forces of all joints below `i`, each transported up the chain
into `i`'s frame — the Jacobian-transpose pairing of the per-joint external
forces, built directly from the joint subspaces and relative placements. -/
def extTorqueEntry (m : KinematicModel) (q : List ℚ) (fext : List Force)
    (t : ℕ) : ℚ :=
  Finset.sum (jointIdx m) fun i =>
    if h : vOffset m i ≤ t ∧ t < vOffset m i + nvAt m i
    then tauSlice m q i (fSubOf m q (fextAt fext) i) ⟨t - vOffset m i, by omega⟩
    else 0

/-- The external generalized-force vector `J_ext^T · f_ext`. -/
def extTorque (m : KinematicModel) (q : List ℚ) (fext : List Force) : List ℚ :=
  (List.range (nvTot m)).map (extTorqueEntry m q fext)

theorem extTorqueEntry_at_slice (m : KinematicModel) (q : List ℚ)
    (fext : List Force) {i t : ℕ} (hi1 : 1 ≤ i) (hi2 : i ≤ njoints m)
    (ht1 : vOffset m i ≤ t) (ht2 : t < vOffset m i + nvAt m i) :
    extTorqueEntry m q fext t
      = tauSlice m q i (fSubOf m q (fextAt fext) i) ⟨t - vOffset m i, by omega⟩ := by
  unfold extTorqueEntry
  have hcong : ∀ i' ∈ jointIdx m,
      (if h : vOffset m i' ≤ t ∧ t < vOffset m i' + nvAt m i'
       then tauSlice m q i' (fSubOf m q (fextAt fext) i') ⟨t - vOffset m i', by omega⟩
       else 0)
      = (if i' = i
         then tauSlice m q i (fSubOf m q (fextAt fext) i) ⟨t - vOffset m i, by omega⟩
         else 0) := by
    intro i' hi'
    have hib := (mem_jointIdx m).mp hi'
    by_cases hii : i' = i
    · subst hii
      rw [dif_pos ⟨ht1, ht2⟩, if_pos rfl]
    · rw [if_neg hii, dif_neg ?_]
      intro hh
      exact slice_disjoint m hib.1 hib.2 hi1 hi2 hii hh ⟨ht1, ht2⟩
  rw [Finset.sum_congr rfl hcong,
    Finset.sum_ite_eq' (jointIdx m) i
      (fun _ => tauSlice m q i (fSubOf m q (fextAt fext) i) ⟨t - vOffset m i, by omega⟩),
    if_pos ((mem_jointIdx m).mpr ⟨hi1, hi2⟩)]

theorem vecAdd_map (f g : ℕ → ℚ) (r : List ℕ) :
    vecAdd (r.map f) (r.map g) = r.map (fun t => f t + g t) := by
  unfold vecAdd
  rw [List.zipWith_map_left, List.zipWith_map_right, List.zipWith_same]

theorem vecSub_map (f g : ℕ → ℚ) (r : List ℕ) :
    vecSub (r.map f) (r.map g) = r.map (fun t => f t - g t) := by
  unfold vecSub
  rw [List.zipWith_map_left, List.zipWith_map_right, List.zipWith_same]

theorem tauSlice_comb (m : KinematicModel) (q : List ℚ) (i : ℕ)
    (A B C D : Force) (k : Fin (nvAt m i)) :
    tauSlice m q i (A + B - C - D) k
      = tauSlice m q i A k + tauSlice m q i B k
        - tauSlice m q i C k - tauSlice m q i D k := by
  simp only [sub_eq_add_neg, tauSlice_add, tauSlice_neg]

/-- C1: the tau vector of the two-pass RNEA recursion (which never forms `M`,
`C` or `g` as matrices) satisfies `tau = M(q)·a + C(q,v)·v + g(q) − J_ext^T·f_ext`
of the equivalent rigid-body equations of motion: the acceleration response
`rnea(q,0,a,0) − rnea(q,0,0,0)` (the same for every `v` — the `M(q)·a` term),
plus the velocity-dependent term `rnea(q,v,0,0) − rnea(q,0,0,0)` (`C(q,v)·v`),
plus the gravity term `rnea(q,0,0,0)` (`g(q)`), minus the Jacobian-transpose
pairing `extTorque` of the external forces. -/
theorem rnea_eom_decomposition (m : KinematicModel) (q v a : List ℚ)
    (fext : List Force) (hwf : WellFormed m) :
    rneaCore m q v a fext =
      vecSub
        (vecAdd
          (vecSub (rneaCore m q (zeroVec (nvTot m)) a [])
                  (rneaCore m q (zeroVec (nvTot m)) (zeroVec (nvTot m)) []))
          (vecAdd
            (vecSub (rneaCore m q v (zeroVec (nvTot m)) [])
                    (rneaCore m q (zeroVec (nvTot m)) (zeroVec (nvTot m)) []))
            (rneaCore m q (zeroVec (nvTot m)) (zeroVec (nvTot m)) [])))
        (extTorque m q fext) := by
  unfold rneaCore extTorque
  simp only [vecSub_map, vecAdd_map]
  apply List.map_congr_left
  intro t ht
  have htn : t < nvTot m := List.mem_range.mp ht
  obtain ⟨i, hi1, hi2, ht1, ht2⟩ := slice_cover_tot m htn
  rw [bwdSweep_tau m q hwf (fInit m q v a fext) hi1 hi2 ht1 ht2,
    bwdSweep_tau m q hwf (fInit m q (zeroVec (nvTot m)) a []) hi1 hi2 ht1 ht2,
    bwdSweep_tau m q hwf (fInit m q (zeroVec (nvTot m)) (zeroVec (nvTot m)) [])
      hi1 hi2 ht1 ht2,
    bwdSweep_tau m q hwf (fInit m q v (zeroVec (nvTot m)) []) hi1 hi2 ht1 ht2,
    extTorqueEntry_at_slice m q fext hi1 hi2 ht1 ht2]
  have happ := congrArg
    (fun f => tauSlice m q i f ⟨t - vOffset m i, by omega⟩)
    (fSub_eom_split m q v a fext i)
  simp only at happ
  rw [tauSlice_comb] at happ
  rw [happ]
  ring

/-- A concrete external-force list for `mEx`. -/
def fextEx : List Force :=
  [⟨fun t => if t.val = 0 then 2 else 0, 0⟩, ⟨0, fun t => if t.val = 1 then -3 else 0⟩]

/-- Witness for `rnea_eom_decomposition` at the concrete chain `mEx`. -/
theorem rnea_eom_decomposition_witness :
    WellFormed mEx ∧
    rneaCore mEx qEx vEx aEx fextEx =
      vecSub
        (vecAdd
          (vecSub (rneaCore mEx qEx (zeroVec (nvTot mEx)) aEx [])
                  (rneaCore mEx qEx (zeroVec (nvTot mEx)) (zeroVec (nvTot mEx)) []))
          (vecAdd
            (vecSub (rneaCore mEx qEx vEx (zeroVec (nvTot mEx)) [])
                    (rneaCore mEx qEx (zeroVec (nvTot mEx)) (zeroVec (nvTot mEx)) []))
            (rneaCore mEx qEx (zeroVec (nvTot mEx)) (zeroVec (nvTot mEx)) [])))
        (extTorque mEx qEx fextEx) :=
  ⟨by decide, rnea_eom_decomposition mEx qEx vEx aEx fextEx (by decide)⟩

/-- C7: for a fixed model, configuration and velocity, the RNEA output is
affine in the acceleration argument:
`rnea(q,v,a1+a2) − rnea(q,v,0) = (rnea(q,v,a1) − rnea(q,v,0)) + (rnea(q,v,a2) − rnea(q,v,0))`. -/
theorem rnea_affine_in_acceleration (m : KinematicModel) (q v a1 a2 : List ℚ)
    (hwf : WellFormed m) (hlen : a1.length = a2.length) :
    vecSub (rneaCore m q v (vecAdd a1 a2) [])
           (rneaCore m q v (zeroVec (nvTot m)) []) =
      vecAdd
        (vecSub (rneaCore m q v a1 []) (rneaCore m q v (zeroVec (nvTot m)) []))
        (vecSub (rneaCore m q v a2 []) (rneaCore m q v (zeroVec (nvTot m)) [])) := by
  unfold rneaCore
  simp only [vecSub_map, vecAdd_map]
  apply List.map_congr_left
  intro t ht
  have htn : t < nvTot m := List.mem_range.mp ht
  obtain ⟨i, hi1, hi2, ht1, ht2⟩ := slice_cover_tot m htn
  rw [bwdSweep_tau m q hwf (fInit m q v (vecAdd a1 a2) []) hi1 hi2 ht1 ht2,
    bwdSweep_tau m q hwf (fInit m q v (zeroVec (nvTot m)) []) hi1 hi2 ht1 ht2,
    bwdSweep_tau m q hwf (fInit m q v a1 []) hi1 hi2 ht1 ht2,
    bwdSweep_tau m q hwf (fInit m q v a2 []) hi1 hi2 ht1 ht2]
  have hforce : fSubOf m q (fInit m q v (vecAdd a1 a2) []) i
      + fSubOf m q (fInit m q v (zeroVec (nvTot m)) []) i
      = fSubOf m q (fInit m q v a1 []) i + fSubOf m q (fInit m q v a2 []) i := by
    rw [← fSubOf_add, ← fSubOf_add]
    have hfun : (fun c => fInit m q v (vecAdd a1 a2) [] c
        + fInit m q v (zeroVec (nvTot m)) [] c)
        = fun c => fInit m q v a1 [] c + fInit m q v a2 [] c := by
      funext c
      exact fInit_four_acc m q v a1 a2 [] hlen c
    rw [hfun]
  have happ := congrArg
    (fun f => tauSlice m q i f ⟨t - vOffset m i, by omega⟩) hforce
  simp only [tauSlice_add] at happ
  linarith [happ]

/-- Witness for `rnea_affine_in_acceleration` at the concrete chain `mEx`. -/
theorem rnea_affine_in_acceleration_witness :
    (WellFormed mEx ∧ aEx.length = [(2 : ℚ), 5].length) ∧
    vecSub (rneaCore mEx qEx vEx (vecAdd aEx [(2 : ℚ), 5]) [])
           (rneaCore mEx qEx vEx (zeroVec (nvTot mEx)) []) =
      vecAdd
        (vecSub (rneaCore mEx qEx vEx aEx [])
                (rneaCore mEx qEx vEx (zeroVec (nvTot mEx)) []))
        (vecSub (rneaCore mEx qEx vEx [(2 : ℚ), 5] [])
                (rneaCore mEx qEx vEx (zeroVec (nvTot mEx)) [])) := by
  refine ⟨⟨by decide, by decide⟩, ?_⟩
  have h := rnea_affine_in_acceleration mEx qEx vEx aEx [(2 : ℚ), 5]
    (by decide) (by decide)
  exact h
